import Mathlib

/-!
Shallow embedding of the validator-set lifecycle engine of bnc-cosmos-sdk
(x/stake keeper: validator store, power index, state transitions, unbonding
queue, and the per-block validator-set diff `ApplyAndReturnValidatorSetUpdates`).

Addresses are modelled as `Nat`, token/share amounts and heights as `Int`
(`sdk.Dec` values appear in the source only through `RawInt`/`IsZero`/ordering,
so an integer model is faithful for everything proved here), and block times as
`Nat`.  The KV store is modelled as one state record with a field per keyspace.
Go panics are modelled as `Option.none` results.
-/

namespace BncStake

/-- Validator bond status (`sdk.Unbonded / sdk.Unbonding / sdk.Bonded`). -/
inductive BondStatus where
  | unbonded
  | unbonding
  | bonded
deriving DecidableEq

/-- Consensus identity of a validator: either a main-chain consensus public key
or a side-chain consensus address.  The spec calls these a mutually exclusive
variant, which matches the source (`ConsPubKey` is nil exactly for side-chain
validators, whose `SideConsAddr` is set). -/
inductive ConsId where
  | main (pk : Nat)
  | side (addr : Nat)
deriving DecidableEq

/-- Commission data (rate, bounds, last update time). -/
structure Commission where
  rate : Int
  maxRate : Int
  maxChangeRate : Int
  updateTime : Nat
deriving DecidableEq

/-- Validator record, mirroring `types.Validator` fields used by the engine. -/
structure Validator where
  operatorAddr : Nat
  consId : ConsId
  jailed : Bool
  status : BondStatus
  tokens : Int
  delegatorShares : Int
  bondHeight : Int
  bondIntraTxCounter : Int
  unbondingMinTime : Nat
  unbondingHeight : Int
  commission : Commission
deriving DecidableEq

/-- `validator.ConsPubKey` (`nil` for side-chain validators). -/
def Validator.consPubKey (v : Validator) : Option Nat :=
  match v.consId with
  | .main pk => some pk
  | .side _ => none

/-- `validator.IsSideChainValidator()`. -/
def Validator.isSideChainValidator (v : Validator) : Bool :=
  match v.consId with
  | .main _ => false
  | .side _ => true

/-- The consensus address under which the consensus-identity index keys this
validator: `SideConsAddr` for side-chain validators, otherwise
`ConsPubKey.Address()` (the address derived from the key is modelled as the
key value itself). -/
def Validator.consAddress (v : Validator) : Nat :=
  match v.consId with
  | .main pk => pk
  | .side a => a

/-- `validator.IsUnbonding()`. -/
def Validator.isUnbonding (v : Validator) : Bool :=
  v.status = .unbonding

/-- `validator.BondedTokens()`: tokens while bonded, zero otherwise. -/
def Validator.bondedTokens (v : Validator) : Int :=
  if v.status = .bonded then v.tokens else 0

/-- Power-index key.  Modelled from the spec: `GetValidatorsByPowerIndexKey`
is not under src/; the spec gives
`key = encode(power, bond_height, intra_tx_counter, operator_address)`
with value = operator address, so the key is modelled as that tuple. -/
structure PIKey where
  power : Int
  bondHeight : Int
  counter : Int
  addr : Nat
deriving DecidableEq

/-- The power-index key of a validator record. -/
def piKey (v : Validator) : PIKey :=
  ⟨v.tokens, v.bondHeight, v.bondIntraTxCounter, v.operatorAddr⟩

/-- Iteration precedence of power-index keys under the store's reverse
(descending) iteration.  Modelled from the spec: power descending, then bond
height ascending, then intra-tx counter ascending, then address ascending. -/
def keyBefore (a b : PIKey) : Bool :=
  if a.power ≠ b.power then b.power < a.power
  else if a.bondHeight ≠ b.bondHeight then a.bondHeight < b.bondHeight
  else if a.counter ≠ b.counter then a.counter < b.counter
  else a.addr ≤ b.addr

/-- Chain-wide pool of bonded vs loose tokens. -/
structure Pool where
  bondedTokens : Int
  looseTokens : Int
deriving DecidableEq

/-- Events observable outside the store: lifecycle hooks and published
pub-sub events. -/
inductive Event where
  | validatorUpdated (fromTx : Bool) (operator : Nat)
  | validatorRemoved (fromTx : Bool) (operator : Nat)
  | bondedHook (consAddr : Nat) (operator : Nat)
  | sideBondedHook (sideConsAddr : Nat) (operator : Nat)
  | beginUnbondingHook (consAddr : Nat) (operator : Nat)
  | sideBeginUnbondingHook (sideConsAddr : Nat) (operator : Nat)
deriving DecidableEq

/-- Block context (header height/time, DeliverTx flags). -/
structure Ctx where
  blockHeight : Int
  blockTime : Nat
  isDeliverTx : Bool
  hasTx : Bool
deriving DecidableEq

/-- Keeper-level parameters and wiring flags (`k.GetParams(ctx)`, presence of
`k.hooks` and `k.PbsbServer`). -/
structure KeeperParams where
  maxValidators : Nat
  unbondingTime : Nat
  hooksPresent : Bool
  pbsbServer : Bool
deriving DecidableEq

/-- A consensus-update record (`abci.ValidatorUpdate`), tracked together with
the operator address of the validator that produced it. -/
structure UpdateRec where
  operator : Nat
  power : Int
deriving DecidableEq

/-- The five keyspaces of the store plus pool, counters and the event log. -/
structure State where
  vals : List Validator
  powerIndex : List PIKey
  consIndex : List (Nat × Nat)
  lastPower : List (Nat × Int)
  queue : List (Nat × List Nat)
  pool : Pool
  intraTxCounter : Int
  lastTotalPower : Int
  events : List Event
deriving DecidableEq

/-! ### Generic list-as-KV helpers -/

/-- Insert a key into a key set (store `Set`: idempotent on an existing key). -/
def kvSet (l : List PIKey) (k : PIKey) : List PIKey :=
  if k ∈ l then l else k :: l

/-- Delete a key from a key set (store `Delete`). -/
def kvDelete (l : List PIKey) (k : PIKey) : List PIKey :=
  l.filter (fun x => x ≠ k)

/-- Insertion step for `sortBy`. -/
def insertSorted (le : α → α → Bool) (x : α) : List α → List α
  | [] => [x]
  | y :: ys => if le x y then x :: y :: ys else y :: insertSorted le x ys

/-- Insertion sort by an ordering function; used to model deterministic store
iteration orders. -/
def sortBy (le : α → α → Bool) : List α → List α
  | [] => []
  | x :: xs => insertSorted le x (sortBy le xs)

theorem insertSorted_perm (le : α → α → Bool) (x : α) :
    ∀ l : List α, (insertSorted le x l).Perm (x :: l) := by
  intro l
  induction l with
  | nil => simp [insertSorted]
  | cons y ys ih =>
    by_cases h : le x y = true
    · simp [insertSorted, h]
    · simp only [insertSorted, h, if_false]
      exact ((ih.cons y).trans (List.Perm.swap x y ys)).symm.symm

theorem sortBy_perm (le : α → α → Bool) :
    ∀ l : List α, (sortBy le l).Perm l := by
  intro l
  induction l with
  | nil => simp [sortBy]
  | cons x xs ih =>
    exact (insertSorted_perm le x (sortBy le xs)).trans (ih.cons x)

/-! ### Store primitives -/

/-- `GetValidator`: look the validator record up by operator address. -/
def getValidator (st : State) (a : Nat) : Option Validator :=
  st.vals.find? (fun v => v.operatorAddr == a)

/-- `SetValidator`: overwrite the record keyed by its operator address, and
publish a `ValidatorUpdateEvent` when the pub-sub server is wired and the
context is a DeliverTx. -/
def SetValidator (ctx : Ctx) (k : KeeperParams) (st : State) (v : Validator) : State :=
  { st with
    vals := v :: st.vals.filter (fun u => u.operatorAddr ≠ v.operatorAddr)
    events :=
      if k.pbsbServer ∧ ctx.isDeliverTx then
        .validatorUpdated ctx.hasTx v.operatorAddr :: st.events
      else st.events }

/-- `SetValidatorByPowerIndex`: jailed validators are not kept in the power
index. -/
def SetValidatorByPowerIndex (st : State) (v : Validator) : State :=
  if v.jailed then st
  else { st with powerIndex := kvSet st.powerIndex (piKey v) }

/-- `DeleteValidatorByPowerIndex`. -/
def DeleteValidatorByPowerIndex (st : State) (v : Validator) : State :=
  { st with powerIndex := kvDelete st.powerIndex (piKey v) }

/-- `SetNewValidatorByPowerIndex`: inserts unconditionally (no jailed guard). -/
def SetNewValidatorByPowerIndex (st : State) (v : Validator) : State :=
  { st with powerIndex := kvSet st.powerIndex (piKey v) }

/-- `SetPool`. -/
def SetPool (st : State) (p : Pool) : State :=
  { st with pool := p }

/-- `GetIntraTxCounter`.  Modelled from the spec: the getter is not under
src/; it reads the per-block counter. -/
def GetIntraTxCounter (st : State) : Int :=
  st.intraTxCounter

/-- `SetIntraTxCounter`.  Modelled from the spec: the setter is not under
src/; it stores the per-block counter. -/
def SetIntraTxCounter (st : State) (c : Int) : State :=
  { st with intraTxCounter := c }

/-- `SetLastValidatorPower`.  Modelled from the spec: not under src/; writes
the previous-bonded-set snapshot entry for an operator. -/
def SetLastValidatorPower (st : State) (a : Nat) (p : Int) : State :=
  { st with lastPower := (a, p) :: st.lastPower.filter (fun e => e.1 ≠ a) }

/-- `DeleteLastValidatorPower`.  Modelled from the spec: not under src/;
deletes the snapshot entry for an operator. -/
def DeleteLastValidatorPower (st : State) (a : Nat) : State :=
  { st with lastPower := st.lastPower.filter (fun e => e.1 ≠ a) }

/-- `SetLastTotalPower`.  Modelled from the spec: not under src/; stores the
total bonded power. -/
def SetLastTotalPower (st : State) (p : Int) : State :=
  { st with lastTotalPower := p }

/-- Append an event to the observable log. -/
def appendEvent (st : State) (e : Event) : State :=
  { st with events := e :: st.events }

/-! ### Pool-aware validator/share arithmetic (modelled) -/

/-- `validator.UpdateStatus(pool, newStatus)`.  Modelled from the spec:
`types.Validator.UpdateStatus` is not under src/; per the spec's Pool
invariant, tokens move between the bonded and loose pools exactly when the
validator enters or leaves Bonded status; the validator's own token balance is
unchanged. -/
def UpdateStatus (v : Validator) (p : Pool) (s : BondStatus) : Validator × Pool :=
  let p' :=
    if v.status = .bonded ∧ s ≠ .bonded then
      { bondedTokens := p.bondedTokens - v.tokens, looseTokens := p.looseTokens + v.tokens }
    else if v.status ≠ .bonded ∧ s = .bonded then
      { bondedTokens := p.bondedTokens + v.tokens, looseTokens := p.looseTokens - v.tokens }
    else p
  ({ v with status := s }, p')

/-- `validator.AddTokensFromDel(pool, amount)`.  Modelled from the spec:
`types.Validator.AddTokensFromDel` is not under src/; per the spec it is the
pool-aware token→share conversion: shares are issued at the current
exchange rate (one-to-one for a fresh validator), the validator's tokens and
shares grow, and the pool moves the amount from loose to bonded when the
validator is bonded. -/
def AddTokensFromDel (v : Validator) (p : Pool) (amount : Int) :
    Validator × Pool × Int :=
  let issued := if v.tokens = 0 then amount else v.delegatorShares * amount / v.tokens
  let v' := { v with tokens := v.tokens + amount,
                     delegatorShares := v.delegatorShares + issued }
  let p' :=
    if v.status = .bonded then
      { bondedTokens := p.bondedTokens + amount, looseTokens := p.looseTokens - amount }
    else p
  (v', p', issued)

/-- `validator.RemoveDelShares(pool, shares)`.  Modelled from the spec:
`types.Validator.RemoveDelShares` is not under src/; per the spec it is the
pool-aware share→token conversion: the removed shares convert to tokens at
the current exchange rate, and the pool moves those tokens from bonded to
loose when the validator is bonded. -/
def RemoveDelShares (v : Validator) (p : Pool) (shares : Int) :
    Validator × Pool × Int :=
  let removed := if v.delegatorShares = 0 then 0 else shares * v.tokens / v.delegatorShares
  let v' := { v with tokens := v.tokens - removed,
                     delegatorShares := v.delegatorShares - shares }
  let p' :=
    if v.status = .bonded then
      { bondedTokens := p.bondedTokens - removed, looseTokens := p.looseTokens + removed }
    else p
  (v', p', removed)

/-- `validator.RemoveTokens(pool, tokens)`.  Modelled from the spec:
`types.Validator.RemoveTokens` is not under src/; it burns tokens from the
validator and from the corresponding pool side. -/
def RemoveTokens (v : Validator) (p : Pool) (amount : Int) : Validator × Pool :=
  let v' := { v with tokens := v.tokens - amount }
  let p' :=
    if v.status = .bonded then
      { bondedTokens := p.bondedTokens - amount, looseTokens := p.looseTokens }
    else { bondedTokens := p.bondedTokens, looseTokens := p.looseTokens - amount }
  (v', p')

/-! ### Commission validation (modelled) -/

/-- Typed commission-validation errors (the spec's three recoverable cases). -/
inductive CommissionErr where
  | outsideBounds
  | updatedTooRecently
  | tooLargeAdjustment
deriving DecidableEq

/-- Minimum delay between commission-rate updates used by the modelled
validation (one day of seconds). -/
def commissionUpdateWait : Nat := 86400

/-- `commission.ValidateNewRate(newRate, blockTime)`.  Modelled from the spec:
`types.Commission.ValidateNewRate` is not under src/; per the spec it rejects
a proposed rate that is outside bounds (negative or above the maximum rate),
changed too recently, or too large a single adjustment. -/
def validateNewRate (c : Commission) (newRate : Int) (blockTime : Nat) :
    Option CommissionErr :=
  if newRate < 0 ∨ c.maxRate < newRate then some .outsideBounds
  else if blockTime < c.updateTime + commissionUpdateWait then some .updatedTooRecently
  else if c.maxChangeRate < |newRate - c.rate| then some .tooLargeAdjustment
  else none

/-! ### Queue and consensus-index primitives -/

/-- `GetValidatorQueueTimeSlice`: the timeslice stored for a maturity time,
empty when absent. -/
def GetValidatorQueueTimeSlice (st : State) (t : Nat) : List Nat :=
  match st.queue.find? (fun e => e.1 == t) with
  | none => []
  | some e => e.2

/-- `SetValidatorQueueTimeSlice`. -/
def SetValidatorQueueTimeSlice (st : State) (t : Nat) (ks : List Nat) : State :=
  { st with queue := (t, ks) :: st.queue.filter (fun e => e.1 ≠ t) }

/-- Delete a whole timeslice key (the `store.Delete(iterator.Key())` in
`UnbondAllMatureValidatorQueue`). -/
def deleteQueueTime (st : State) (t : Nat) : State :=
  { st with queue := st.queue.filter (fun e => e.1 ≠ t) }

/-- `InsertValidatorQueue`: append the operator to the timeslice at its
unbonding maturity time. -/
def InsertValidatorQueue (st : State) (v : Validator) : State :=
  let timeSlice := GetValidatorQueueTimeSlice st v.unbondingMinTime
  if timeSlice.length = 0 then
    SetValidatorQueueTimeSlice st v.unbondingMinTime [v.operatorAddr]
  else
    SetValidatorQueueTimeSlice st v.unbondingMinTime (timeSlice ++ [v.operatorAddr])

/-- Delete a consensus-identity index entry. -/
def consIndexDelete (st : State) (key : Nat) : State :=
  { st with consIndex := st.consIndex.filter (fun e => e.1 ≠ key) }

/-- `RemoveValidator`: silently returns when no record exists; otherwise
deletes the record, its consensus-identity index entry and its power-index
key, and publishes a `ValidatorRemovedEvent` when the pub-sub server is wired
and the context is a DeliverTx. -/
def RemoveValidator (ctx : Ctx) (k : KeeperParams) (st : State) (a : Nat) : State :=
  match getValidator st a with
  | none => st
  | some v =>
    let st := { st with vals := st.vals.filter (fun u => u.operatorAddr ≠ a) }
    let st := consIndexDelete st v.consAddress
    let st := { st with powerIndex := kvDelete st.powerIndex (piKey v) }
    if k.pbsbServer ∧ ctx.isDeliverTx then
      appendEvent st (.validatorRemoved ctx.hasTx v.operatorAddr)
    else st

/-! ### State transitions -/

/-- `bondValidator`: all store operations for a validator becoming bonded. -/
def bondValidator (ctx : Ctx) (k : KeeperParams) (st : State) (v : Validator) :
    State × Validator :=
  let pool := st.pool
  let st := DeleteValidatorByPowerIndex st v
  let v := { v with bondHeight := ctx.blockHeight }
  let (v, pool) := UpdateStatus v pool .bonded
  let st := SetPool st pool
  let st := SetValidator ctx k st v
  let st := SetValidatorByPowerIndex st v
  let st :=
    if k.hooksPresent then
      if v.isSideChainValidator then
        appendEvent st (.sideBondedHook v.consAddress v.operatorAddr)
      else
        appendEvent st (.bondedHook v.consAddress v.operatorAddr)
    else st
  (st, v)

/-- `beginUnbondingValidator`: all store operations for a validator beginning
to unbond; `none` models the sanity-check panic on a non-bonded input. -/
def beginUnbondingValidator (ctx : Ctx) (k : KeeperParams) (st : State)
    (v : Validator) : Option (State × Validator) :=
  let pool := st.pool
  let st := DeleteValidatorByPowerIndex st v
  if v.status ≠ .bonded then none
  else
    let (v, pool) := UpdateStatus v pool .unbonding
    let st := SetPool st pool
    let v := { v with unbondingMinTime := ctx.blockTime + k.unbondingTime,
                      unbondingHeight := ctx.blockHeight }
    let st := SetValidator ctx k st v
    let st := SetValidatorByPowerIndex st v
    let st := InsertValidatorQueue st v
    let st :=
      if k.hooksPresent then
        if v.isSideChainValidator then
          appendEvent st (.sideBeginUnbondingHook v.consAddress v.operatorAddr)
        else
          appendEvent st (.beginUnbondingHook v.consAddress v.operatorAddr)
      else st
    some (st, v)

/-- `completeUnbondingValidator`: status goes to Unbonded; no hooks. -/
def completeUnbondingValidator (ctx : Ctx) (k : KeeperParams) (st : State)
    (v : Validator) : State × Validator :=
  let pool := st.pool
  let (v, pool) := UpdateStatus v pool .unbonded
  let st := SetPool st pool
  let st := SetValidator ctx k st v
  (st, v)

/-- `bondedToUnbonding`: panics (`none`) unless the validator is Bonded. -/
def bondedToUnbonding (ctx : Ctx) (k : KeeperParams) (st : State)
    (v : Validator) : Option (State × Validator) :=
  if v.status ≠ .bonded then none
  else beginUnbondingValidator ctx k st v

/-- `unbondingToBonded`: panics (`none`) unless the validator is Unbonding. -/
def unbondingToBonded (ctx : Ctx) (k : KeeperParams) (st : State)
    (v : Validator) : Option (State × Validator) :=
  if v.status ≠ .unbonding then none
  else some (bondValidator ctx k st v)

/-- `unbondedToBonded`: panics (`none`) unless the validator is Unbonded. -/
def unbondedToBonded (ctx : Ctx) (k : KeeperParams) (st : State)
    (v : Validator) : Option (State × Validator) :=
  if v.status ≠ .unbonded then none
  else some (bondValidator ctx k st v)

/-- `unbondingToUnbonded`: panics (`none`) unless the validator is Unbonding. -/
def unbondingToUnbonded (ctx : Ctx) (k : KeeperParams) (st : State)
    (v : Validator) : Option (State × Validator) :=
  if v.status ≠ .unbonding then none
  else some (completeUnbondingValidator ctx k st v)

/-- `jailValidator`: panics (`none`) on an already-jailed validator; sets the
flag and deletes the power-index entry. -/
def jailValidator (ctx : Ctx) (k : KeeperParams) (st : State)
    (v : Validator) : Option State :=
  if v.jailed then none
  else
    let v := { v with jailed := true }
    let st := SetValidator ctx k st v
    let st := DeleteValidatorByPowerIndex st v
    some st

/-- `unjailValidator`: panics (`none`) on a non-jailed validator; clears the
flag and reinserts the power-index entry. -/
def unjailValidator (ctx : Ctx) (k : KeeperParams) (st : State)
    (v : Validator) : Option State :=
  if !v.jailed then none
  else
    let v := { v with jailed := false }
    let st := SetValidator ctx k st v
    let st := SetValidatorByPowerIndex st v
    some st

/-! ### Token-affecting mutators and commission update -/

/-- `AddValidatorTokensAndShares`: delete-then-reinsert the power-index entry
around the token change, assigning a fresh intra-tx counter. -/
def AddValidatorTokensAndShares (ctx : Ctx) (k : KeeperParams) (st : State)
    (v : Validator) (tokensToAdd : Int) : State × Validator × Int :=
  let pool := st.pool
  let st := DeleteValidatorByPowerIndex st v
  let (v, pool, addedShares) := AddTokensFromDel v pool tokensToAdd
  let counter := GetIntraTxCounter st
  let v := { v with bondIntraTxCounter := counter }
  let st := SetIntraTxCounter st (counter + 1)
  let st := SetValidator ctx k st v
  let st := SetPool st pool
  let st := SetValidatorByPowerIndex st v
  (st, v, addedShares)

/-- `RemoveValidatorTokensAndShares`: delete-then-reinsert the power-index
entry around the share removal (the source assigns no intra-tx counter
here). -/
def RemoveValidatorTokensAndShares (ctx : Ctx) (k : KeeperParams) (st : State)
    (v : Validator) (sharesToRemove : Int) : State × Validator × Int :=
  let pool := st.pool
  let st := DeleteValidatorByPowerIndex st v
  let (v, pool, removedTokens) := RemoveDelShares v pool sharesToRemove
  let st := SetValidator ctx k st v
  let st := SetPool st pool
  let st := SetValidatorByPowerIndex st v
  (st, v, removedTokens)

/-- `RemoveValidatorTokens`: delete-then-reinsert the power-index entry around
a direct token burn. -/
def RemoveValidatorTokens (ctx : Ctx) (k : KeeperParams) (st : State)
    (v : Validator) (tokensToRemove : Int) : State × Validator :=
  let pool := st.pool
  let st := DeleteValidatorByPowerIndex st v
  let (v, pool) := RemoveTokens v pool tokensToRemove
  let st := SetValidator ctx k st v
  let st := SetPool st pool
  let st := SetValidatorByPowerIndex st v
  (st, v)

/-- `UpdateValidatorCommission`: validates the proposed rate against the
block time and returns either the updated commission or a typed error; the
function performs no store writes in either case. -/
def UpdateValidatorCommission (ctx : Ctx) (st : State) (v : Validator)
    (newRate : Int) : State × Commission × Option CommissionErr :=
  let commission := v.commission
  let blockTime := ctx.blockTime
  match validateNewRate commission newRate blockTime with
  | some e => (st, commission, some e)
  | none =>
    (st, { commission with rate := newRate, updateTime := blockTime }, none)

/-! ### Unbonding queue drain -/

/-- One operator of a matured timeslice inside `UnbondAllMatureValidatorQueue`:
skipped when absent or not Unbonding, otherwise completed and removed when its
delegator shares are zero. -/
def processMaturedAddr (ctx : Ctx) (k : KeeperParams) (st : State) (valAddr : Nat) :
    State :=
  match getValidator st valAddr with
  | none => st
  | some val =>
    if !val.isUnbonding then st
    else
      match unbondingToUnbonded ctx k st val with
      | none => st -- unreachable: the guard above established Unbonding status
      | some (st, _) =>
        if val.delegatorShares = 0 then RemoveValidator ctx k st val.operatorAddr
        else st

/-- One matured timeslice: process its operators in order, then delete the
timeslice key. -/
def processMaturedSlice (ctx : Ctx) (k : KeeperParams) (st : State)
    (e : Nat × List Nat) : State :=
  deleteQueueTime (e.2.foldl (fun st a => processMaturedAddr ctx k st a) st) e.1

/-- `UnbondAllMatureValidatorQueue`: iterate all timeslices with maturity time
at most the block time, ascending. -/
def UnbondAllMatureValidatorQueue (ctx : Ctx) (k : KeeperParams) (st : State) :
    State :=
  let matured :=
    sortBy (fun a b => a.1 ≤ b.1) (st.queue.filter (fun e => e.1 ≤ ctx.blockTime))
  matured.foldl (fun st e => processMaturedSlice ctx k st e) st

/-! ### Validator-set diff engine -/

/-- `validator.ABCIValidatorUpdate()`: the consensus-update record with the
validator's bonded power. -/
def ABCIValidatorUpdate (v : Validator) : UpdateRec :=
  ⟨v.operatorAddr, v.bondedTokens⟩

/-- `validator.ABCIValidatorUpdateZero()`: the zero-power removal record. -/
def ABCIValidatorUpdateZero (v : Validator) : UpdateRec :=
  ⟨v.operatorAddr, 0⟩

/-- Operator addresses in the order produced by the descending iteration of
the power index (`KVStoreReversePrefixIterator` over
`ValidatorsByPowerIndexKey`; each entry's value is the operator address). -/
def powerIterOps (st : State) : List Nat :=
  (sortBy keyBefore st.powerIndex).map PIKey.addr

/-- The status switch of the candidate loop: apply the state change needed to
reach Bonded (`none` models the panic of the transition wrappers). -/
def candStep (ctx : Ctx) (k : KeeperParams) (st : State) (v : Validator) :
    Option (State × Validator) :=
  match v.status with
  | .unbonded => unbondedToBonded ctx k st v
  | .unbonding => unbondingToBonded ctx k st v
  | .bonded => some (st, v)

/-- The candidate loop of `ApplyAndReturnValidatorSetUpdates`: walk the
descending power iteration up to `MaxValidators` entries, panic (`none`) on a
jailed candidate or a missing record, break on the first zero-power candidate,
bond the candidate if necessary, emit an update when its power changed
relative to the previous snapshot (only for validators with a consensus
public key), and delete the candidate from the working copy of the previous
bonded set. -/
def candLoop (ctx : Ctx) (k : KeeperParams) :
    List Nat → State → List (Nat × Int) → Nat → List Validator →
      List UpdateRec → Int →
      Option (State × List (Nat × Int) × List Validator × List UpdateRec × Int)
  | [], st, last, _, nv, upd, tot => some (st, last, nv, upd, tot)
  | op :: rest, st, last, cr, nv, upd, tot =>
    if cr = 0 then some (st, last, nv, upd, tot)
    else
      match getValidator st op with
      | none => none
      | some v =>
        if v.jailed then none
        else if v.tokens = 0 then some (st, last, nv, upd, tot)
        else
          match candStep ctx k st v with
          | none => none
          | some (st, v) =>
            let nv := nv ++ [v]
            let oldPower := (last.find? (fun e => e.1 == op)).map Prod.snd
            let newPower := v.bondedTokens
            let updSt : List UpdateRec × State :=
              if oldPower ≠ some newPower then
                ((if v.consPubKey.isSome then upd ++ [ABCIValidatorUpdate v] else upd),
                 SetLastValidatorPower st op newPower)
              else (upd, st)
            candLoop ctx k rest updSt.2 (last.filter (fun e => e.1 ≠ op)) (cr - 1)
              nv updSt.1 (tot + newPower)

/-- The no-longer-bonded loop of `ApplyAndReturnValidatorSetUpdates`: each
operator bonded last block that did not qualify this block transitions
Bonded→Unbonding (panicking, i.e. `none`, when not Bonded or missing), is
removed entirely when its token balance is zero, loses its snapshot entry,
and emits a zero-power record when it has a consensus public key. -/
def removalLoop (ctx : Ctx) (k : KeeperParams) :
    List Nat → State → List UpdateRec → Option (State × List UpdateRec)
  | [], st, upd => some (st, upd)
  | op :: rest, st, upd =>
    match getValidator st op with
    | none => none
    | some v =>
      match bondedToUnbonding ctx k st v with
      | none => none
      | some (st, _) =>
        let st := if v.tokens = 0 then RemoveValidator ctx k st v.operatorAddr else st
        let st := DeleteLastValidatorPower st op
        let upd := if v.consPubKey.isSome then upd ++ [ABCIValidatorUpdateZero v] else upd
        removalLoop ctx k rest st upd

/-- `ApplyAndReturnValidatorSetUpdates`: the per-block reconciliation of the
power index against the previous bonded set; returns the new bonded set and
the ordered consensus-update list, or `none` when the source would panic. -/
def ApplyAndReturnValidatorSetUpdates (ctx : Ctx) (k : KeeperParams) (st : State) :
    Option (State × List Validator × List UpdateRec) :=
  let maxValidators := k.maxValidators
  let last := st.lastPower
  match candLoop ctx k (powerIterOps st) st last maxValidators [] [] 0 with
  | none => none
  | some (st, last, newVals, updates, totalPower) =>
    let noLongerBonded := sortBy (fun a b => a ≤ b) (last.map Prod.fst)
    match removalLoop ctx k noLongerBonded st updates with
    | none => none
    | some (st, updates) =>
      let st := if updates.length ≠ 0 then SetLastTotalPower st totalPower else st
      some (st, newVals, updates)

/-! ### Engine operations as a step type (for the power-index invariant) -/

/-- The mutating operations of the engine, each identified by the operator
address whose freshly-read record is passed to the underlying function (this
matches every call site in the source, which reads the record immediately
before mutating). -/
inductive Op where
  | jail (a : Nat)
  | unjail (a : Nat)
  | bond (a : Nat)
  | beginUnbonding (a : Nat)
  | completeUnbonding (a : Nat)
  | addTokens (a : Nat) (amt : Int)
  | removeShares (a : Nat) (sh : Int)
  | removeTokens (a : Nat) (amt : Int)
  | removeValidator (a : Nat)
  | setNewByPowerIndex (a : Nat)

/-- Apply one engine operation; `none` models a panic or a missing record. -/
def applyOp (ctx : Ctx) (k : KeeperParams) (st : State) : Op → Option State
  | .jail a => (getValidator st a).bind (fun v => jailValidator ctx k st v)
  | .unjail a => (getValidator st a).bind (fun v => unjailValidator ctx k st v)
  | .bond a => (getValidator st a).map (fun v => (bondValidator ctx k st v).1)
  | .beginUnbonding a =>
    (getValidator st a).bind (fun v => (bondedToUnbonding ctx k st v).map Prod.fst)
  | .completeUnbonding a =>
    (getValidator st a).bind (fun v => (unbondingToUnbonded ctx k st v).map Prod.fst)
  | .addTokens a amt =>
    (getValidator st a).map (fun v => (AddValidatorTokensAndShares ctx k st v amt).1)
  | .removeShares a sh =>
    (getValidator st a).map (fun v => (RemoveValidatorTokensAndShares ctx k st v sh).1)
  | .removeTokens a amt =>
    (getValidator st a).map (fun v => (RemoveValidatorTokens ctx k st v amt).1)
  | .removeValidator a => some (RemoveValidator ctx k st a)
  | .setNewByPowerIndex a =>
    (getValidator st a).map (fun v => SetNewValidatorByPowerIndex st v)

/-- Power-index consistency over raw lists: the key set is exactly the keys of
the non-jailed stored validators. -/
def listInv (L : List Validator) (K : List PIKey) : Prop :=
  (∀ kkey ∈ K, ∃ v ∈ L, v.jailed = false ∧ kkey = piKey v) ∧
  (∀ v ∈ L, v.jailed = false → piKey v ∈ K)

/-- The power-index invariant of a state: the index holds exactly the keys of
the non-jailed validators, so jailed validators are absent and non-jailed
validators are present. -/
def pidxInv (st : State) : Prop :=
  listInv st.vals st.powerIndex

/-- Store well-formedness: one record per operator address. -/
def valsWF (st : State) : Prop :=
  (st.vals.map Validator.operatorAddr).Nodup

/-- Caller obligation per operation: `SetNewValidatorByPowerIndex` must only
be invoked for a non-jailed validator (its body has no jailed guard); every
other operation carries its own guard. -/
def opOK (st : State) : Op → Prop
  | .setNewByPowerIndex a => ((getValidator st a).map Validator.jailed).getD false = false
  | _ => True

/-! ### Concrete fixtures used to evaluate the model on closed inputs -/

/-- A commission with generous bounds and update time zero. -/
def sampleCommission : Commission := ⟨0, 100, 5, 0⟩

/-- Build a validator record with zeroed lifecycle fields. -/
def mkVal (a : Nat) (cid : ConsId) (jailed : Bool) (status : BondStatus)
    (tokens shares : Int) : Validator :=
  ⟨a, cid, jailed, status, tokens, shares, 0, 0, 0, 0, sampleCommission⟩

/-- The zero pool. -/
def basePool : Pool := ⟨0, 0⟩

/-- An end-of-block context (not a DeliverTx). -/
def baseCtx : Ctx := ⟨10, 1000, false, false⟩

/-- A DeliverTx context. -/
def deliverCtx : Ctx := ⟨10, 1000, true, true⟩

/-- Parameters: MaxValidators 2, unbonding period 100, hooks and pub-sub wired. -/
def baseParams : KeeperParams := ⟨2, 100, true, true⟩

/-- The empty store. -/
def emptyState : State := ⟨[], [], [], [], [], basePool, 0, 0, []⟩

/-- A main-chain validator with stake, not yet bonded. -/
def vMain : Validator := mkVal 1 (.main 21) false .unbonded 10 10

/-- Store holding `vMain` in the record table and power index. -/
def stW1 : State := ⟨[vMain], [piKey vMain], [(21, 1)], [], [], basePool, 0, 0, []⟩

/-- A bonded validator with zero tokens but non-zero delegator shares. -/
def v2cex : Validator := mkVal 1 (.main 21) false .bonded 0 7

/-- Store where `v2cex` was bonded last block (snapshot entry present) but has
no power-index entry left. -/
def st2cex : State := ⟨[v2cex], [], [(21, 1)], [(1, 5)], [], basePool, 0, 0, []⟩

/-- A bonded validator carrying intra-tx counter 5. -/
def v3cex : Validator := ⟨1, .main 21, false, .bonded, 10, 10, 0, 5, 0, 0, sampleCommission⟩

/-- Store holding `v3cex` while the global intra-tx counter is 7. -/
def st3cex : State := ⟨[v3cex], [piKey v3cex], [(21, 1)], [], [], basePool, 7, 0, []⟩

/-- A bonded side-chain validator (no consensus public key). -/
def vSide : Validator := mkVal 2 (.side 9) false .bonded 10 10

/-- Store holding `vSide` in all applicable keyspaces. -/
def stSide : State := ⟨[vSide], [piKey vSide], [(9, 2)], [], [], basePool, 0, 0, []⟩

/-- A jailed bonded validator. -/
def vJail : Validator := mkVal 1 (.main 21) true .bonded 10 10

/-- Store holding `vJail` with an (invariant-respecting) empty power index. -/
def st4cex : State := ⟨[vJail], [], [(21, 1)], [], [], basePool, 0, 0, []⟩

/-- A non-jailed bonded validator for the invariant witness. -/
def vW4 : Validator := mkVal 1 (.main 21) false .bonded 10 10

/-- Store holding `vW4` consistently with the power index. -/
def stW4 : State := ⟨[vW4], [piKey vW4], [(21, 1)], [], [], basePool, 0, 0, []⟩

/-- An unbonded validator with zero tokens (a zero-power candidate). -/
def vZero : Validator := mkVal 3 (.main 23) false .unbonded 0 5

/-- Store holding `vZero`. -/
def stZero : State := ⟨[vZero], [piKey vZero], [(23, 3)], [], [], basePool, 0, 0, []⟩

/-! ### Projection lemmas for the store primitives -/

@[simp] theorem SetValidator_vals (ctx : Ctx) (k : KeeperParams) (st : State) (v : Validator) :
    (SetValidator ctx k st v).vals
      = v :: st.vals.filter (fun u => u.operatorAddr ≠ v.operatorAddr) := rfl

@[simp] theorem SetValidator_powerIndex (ctx : Ctx) (k : KeeperParams) (st : State) (v : Validator) :
    (SetValidator ctx k st v).powerIndex = st.powerIndex := rfl

@[simp] theorem SetValidator_queue (ctx : Ctx) (k : KeeperParams) (st : State) (v : Validator) :
    (SetValidator ctx k st v).queue = st.queue := rfl

@[simp] theorem SetValidator_lastPower (ctx : Ctx) (k : KeeperParams) (st : State) (v : Validator) :
    (SetValidator ctx k st v).lastPower = st.lastPower := rfl

@[simp] theorem SetValidator_intraTxCounter (ctx : Ctx) (k : KeeperParams) (st : State) (v : Validator) :
    (SetValidator ctx k st v).intraTxCounter = st.intraTxCounter := rfl

@[simp] theorem SetValidatorByPowerIndex_vals (st : State) (v : Validator) :
    (SetValidatorByPowerIndex st v).vals = st.vals := by
  unfold SetValidatorByPowerIndex; split <;> rfl

@[simp] theorem SetValidatorByPowerIndex_queue (st : State) (v : Validator) :
    (SetValidatorByPowerIndex st v).queue = st.queue := by
  unfold SetValidatorByPowerIndex; split <;> rfl

@[simp] theorem SetValidatorByPowerIndex_lastPower (st : State) (v : Validator) :
    (SetValidatorByPowerIndex st v).lastPower = st.lastPower := by
  unfold SetValidatorByPowerIndex; split <;> rfl

@[simp] theorem SetValidatorByPowerIndex_intraTxCounter (st : State) (v : Validator) :
    (SetValidatorByPowerIndex st v).intraTxCounter = st.intraTxCounter := by
  unfold SetValidatorByPowerIndex; split <;> rfl

theorem SetValidatorByPowerIndex_powerIndex (st : State) (v : Validator) :
    (SetValidatorByPowerIndex st v).powerIndex
      = if v.jailed then st.powerIndex else kvSet st.powerIndex (piKey v) := by
  unfold SetValidatorByPowerIndex; split <;> simp_all

@[simp] theorem DeleteValidatorByPowerIndex_vals (st : State) (v : Validator) :
    (DeleteValidatorByPowerIndex st v).vals = st.vals := rfl

@[simp] theorem DeleteValidatorByPowerIndex_queue (st : State) (v : Validator) :
    (DeleteValidatorByPowerIndex st v).queue = st.queue := rfl

@[simp] theorem DeleteValidatorByPowerIndex_lastPower (st : State) (v : Validator) :
    (DeleteValidatorByPowerIndex st v).lastPower = st.lastPower := rfl

@[simp] theorem DeleteValidatorByPowerIndex_intraTxCounter (st : State) (v : Validator) :
    (DeleteValidatorByPowerIndex st v).intraTxCounter = st.intraTxCounter := rfl

@[simp] theorem DeleteValidatorByPowerIndex_powerIndex (st : State) (v : Validator) :
    (DeleteValidatorByPowerIndex st v).powerIndex = kvDelete st.powerIndex (piKey v) := rfl

@[simp] theorem SetNewValidatorByPowerIndex_vals (st : State) (v : Validator) :
    (SetNewValidatorByPowerIndex st v).vals = st.vals := rfl

@[simp] theorem SetNewValidatorByPowerIndex_powerIndex (st : State) (v : Validator) :
    (SetNewValidatorByPowerIndex st v).powerIndex = kvSet st.powerIndex (piKey v) := rfl

@[simp] theorem SetPool_vals (st : State) (p : Pool) : (SetPool st p).vals = st.vals := rfl

@[simp] theorem SetPool_powerIndex (st : State) (p : Pool) :
    (SetPool st p).powerIndex = st.powerIndex := rfl

@[simp] theorem SetPool_queue (st : State) (p : Pool) : (SetPool st p).queue = st.queue := rfl

@[simp] theorem SetPool_lastPower (st : State) (p : Pool) :
    (SetPool st p).lastPower = st.lastPower := rfl

@[simp] theorem SetPool_intraTxCounter (st : State) (p : Pool) :
    (SetPool st p).intraTxCounter = st.intraTxCounter := rfl

@[simp] theorem SetIntraTxCounter_vals (st : State) (c : Int) :
    (SetIntraTxCounter st c).vals = st.vals := rfl

@[simp] theorem SetIntraTxCounter_powerIndex (st : State) (c : Int) :
    (SetIntraTxCounter st c).powerIndex = st.powerIndex := rfl

@[simp] theorem SetIntraTxCounter_intraTxCounter (st : State) (c : Int) :
    (SetIntraTxCounter st c).intraTxCounter = c := rfl

@[simp] theorem SetLastValidatorPower_vals (st : State) (a : Nat) (p : Int) :
    (SetLastValidatorPower st a p).vals = st.vals := rfl

@[simp] theorem SetLastValidatorPower_powerIndex (st : State) (a : Nat) (p : Int) :
    (SetLastValidatorPower st a p).powerIndex = st.powerIndex := rfl

@[simp] theorem SetLastValidatorPower_queue (st : State) (a : Nat) (p : Int) :
    (SetLastValidatorPower st a p).queue = st.queue := rfl

@[simp] theorem DeleteLastValidatorPower_vals (st : State) (a : Nat) :
    (DeleteLastValidatorPower st a).vals = st.vals := rfl

@[simp] theorem DeleteLastValidatorPower_powerIndex (st : State) (a : Nat) :
    (DeleteLastValidatorPower st a).powerIndex = st.powerIndex := rfl

@[simp] theorem DeleteLastValidatorPower_queue (st : State) (a : Nat) :
    (DeleteLastValidatorPower st a).queue = st.queue := rfl

@[simp] theorem SetLastTotalPower_vals (st : State) (p : Int) :
    (SetLastTotalPower st p).vals = st.vals := rfl

@[simp] theorem SetLastTotalPower_powerIndex (st : State) (p : Int) :
    (SetLastTotalPower st p).powerIndex = st.powerIndex := rfl

@[simp] theorem appendEvent_vals (st : State) (e : Event) :
    (appendEvent st e).vals = st.vals := rfl

@[simp] theorem appendEvent_powerIndex (st : State) (e : Event) :
    (appendEvent st e).powerIndex = st.powerIndex := rfl

@[simp] theorem appendEvent_queue (st : State) (e : Event) :
    (appendEvent st e).queue = st.queue := rfl

@[simp] theorem appendEvent_lastPower (st : State) (e : Event) :
    (appendEvent st e).lastPower = st.lastPower := rfl

@[simp] theorem consIndexDelete_vals (st : State) (key : Nat) :
    (consIndexDelete st key).vals = st.vals := rfl

@[simp] theorem consIndexDelete_powerIndex (st : State) (key : Nat) :
    (consIndexDelete st key).powerIndex = st.powerIndex := rfl

@[simp] theorem consIndexDelete_queue (st : State) (key : Nat) :
    (consIndexDelete st key).queue = st.queue := rfl

@[simp] theorem SetValidatorQueueTimeSlice_vals (st : State) (t : Nat) (ks : List Nat) :
    (SetValidatorQueueTimeSlice st t ks).vals = st.vals := rfl

@[simp] theorem SetValidatorQueueTimeSlice_powerIndex (st : State) (t : Nat) (ks : List Nat) :
    (SetValidatorQueueTimeSlice st t ks).powerIndex = st.powerIndex := rfl

@[simp] theorem SetValidatorQueueTimeSlice_lastPower (st : State) (t : Nat) (ks : List Nat) :
    (SetValidatorQueueTimeSlice st t ks).lastPower = st.lastPower := rfl

@[simp] theorem deleteQueueTime_vals (st : State) (t : Nat) :
    (deleteQueueTime st t).vals = st.vals := rfl

@[simp] theorem deleteQueueTime_queue (st : State) (t : Nat) :
    (deleteQueueTime st t).queue = st.queue.filter (fun e => e.1 ≠ t) := rfl

@[simp] theorem InsertValidatorQueue_vals (st : State) (v : Validator) :
    (InsertValidatorQueue st v).vals = st.vals := by
  unfold InsertValidatorQueue; dsimp only; split <;> rfl

@[simp] theorem InsertValidatorQueue_powerIndex (st : State) (v : Validator) :
    (InsertValidatorQueue st v).powerIndex = st.powerIndex := by
  unfold InsertValidatorQueue; dsimp only; split <;> rfl

@[simp] theorem InsertValidatorQueue_lastPower (st : State) (v : Validator) :
    (InsertValidatorQueue st v).lastPower = st.lastPower := by
  unfold InsertValidatorQueue; dsimp only; split <;> rfl

/-! ### Basic membership lemmas -/

theorem piKey_addr (v : Validator) : (piKey v).addr = v.operatorAddr := rfl

theorem getValidator_mem {st : State} {a : Nat} {v : Validator}
    (h : getValidator st a = some v) : v ∈ st.vals :=
  List.mem_of_find?_eq_some h

theorem getValidator_addr {st : State} {a : Nat} {v : Validator}
    (h : getValidator st a = some v) : v.operatorAddr = a := by
  have := List.find?_some h
  simpa using this

theorem mem_addr_eq {L : List Validator}
    (hWF : (L.map Validator.operatorAddr).Nodup) {u v : Validator}
    (hu : u ∈ L) (hv : v ∈ L) (h : u.operatorAddr = v.operatorAddr) : u = v :=
  List.inj_on_of_nodup_map hWF hu hv h

theorem kvDelete_mem {K : List PIKey} {x key : PIKey} :
    x ∈ kvDelete K key ↔ x ∈ K ∧ x ≠ key := by
  simp [kvDelete]

theorem kvSet_mem {K : List PIKey} {x key : PIKey} :
    x ∈ kvSet K key ↔ x = key ∨ x ∈ K := by
  unfold kvSet
  by_cases h : key ∈ K
  · simp only [if_pos h]
    constructor
    · exact Or.inr
    · rintro (rfl | hx)
      · exact h
      · exact hx
  · simp [if_neg h]

theorem kvSet_of_mem {K : List PIKey} {key : PIKey} (h : key ∈ K) :
    kvSet K key = K := by
  unfold kvSet
  exact if_pos h

/-! ### Preservation lemmas for the power-index invariant -/

theorem listInv_update {L : List Validator} {K : List PIKey} {v : Validator}
    (v' : Validator)
    (hInv : listInv L K) (hWF : (L.map Validator.operatorAddr).Nodup)
    (hv : v ∈ L) (haddr : v'.operatorAddr = v.operatorAddr) :
    listInv (v' :: L.filter (fun u => u.operatorAddr ≠ v'.operatorAddr))
      (if v'.jailed then kvDelete K (piKey v)
       else kvSet (kvDelete K (piKey v)) (piKey v')) := by
  obtain ⟨hfwd, hbwd⟩ := hInv
  constructor
  · intro kkey hk
    have hsplit : kkey = piKey v' ∧ v'.jailed = false ∨ kkey ∈ K ∧ kkey ≠ piKey v := by
      by_cases hj : v'.jailed
      · rw [if_pos hj] at hk
        exact Or.inr (kvDelete_mem.mp hk)
      · rw [if_neg hj] at hk
        rcases kvSet_mem.mp hk with h1 | h2
        · exact Or.inl ⟨h1, by simpa using hj⟩
        · exact Or.inr (kvDelete_mem.mp h2)
    rcases hsplit with ⟨rfl, hj⟩ | ⟨hkK, hkne⟩
    · exact ⟨v', by simp, hj, rfl⟩
    · obtain ⟨u, huL, huj, rfl⟩ := hfwd _ hkK
      have hune : u ≠ v := fun h => hkne (by rw [h])
      have haddrne : u.operatorAddr ≠ v'.operatorAddr := by
        rw [haddr]
        intro h
        exact hune (mem_addr_eq hWF huL hv h)
      refine ⟨u, ?_, huj, rfl⟩
      exact List.mem_cons_of_mem _ (List.mem_filter.mpr ⟨huL, by simpa using haddrne⟩)
  · intro u hu huj
    rcases List.mem_cons.mp hu with rfl | hu'
    · rw [if_neg (by simp [huj])]
      exact kvSet_mem.mpr (Or.inl rfl)
    · obtain ⟨huL, haddrne⟩ := List.mem_filter.mp hu'
      have haddrne' : u.operatorAddr ≠ v'.operatorAddr := by simpa using haddrne
      have hK : piKey u ∈ K := hbwd u huL huj
      have hne : piKey u ≠ piKey v := by
        intro h
        have h2 : u.operatorAddr = v.operatorAddr := congrArg PIKey.addr h
        exact haddrne' (by rw [haddr]; exact h2)
      have hdel : piKey u ∈ kvDelete K (piKey v) := kvDelete_mem.mpr ⟨hK, hne⟩
      by_cases hj : v'.jailed
      · rw [if_pos hj]; exact hdel
      · rw [if_neg hj]; exact kvSet_mem.mpr (Or.inr hdel)

theorem listInv_remove {L : List Validator} {K : List PIKey} {v : Validator}
    (hInv : listInv L K) (hWF : (L.map Validator.operatorAddr).Nodup) (hv : v ∈ L) :
    listInv (L.filter (fun u => u.operatorAddr ≠ v.operatorAddr))
      (kvDelete K (piKey v)) := by
  obtain ⟨hfwd, hbwd⟩ := hInv
  constructor
  · intro kkey hk
    obtain ⟨hkK, hkne⟩ := kvDelete_mem.mp hk
    obtain ⟨u, huL, huj, rfl⟩ := hfwd _ hkK
    have hune : u ≠ v := fun h => hkne (by rw [h])
    have haddrne : u.operatorAddr ≠ v.operatorAddr := by
      intro h
      exact hune (mem_addr_eq hWF huL hv h)
    exact ⟨u, List.mem_filter.mpr ⟨huL, by simpa using haddrne⟩, huj, rfl⟩
  · intro u hu huj
    obtain ⟨huL, haddrne⟩ := List.mem_filter.mp hu
    have haddrne' : u.operatorAddr ≠ v.operatorAddr := by simpa using haddrne
    have hne : piKey u ≠ piKey v := fun h => haddrne' (congrArg PIKey.addr h)
    exact kvDelete_mem.mpr ⟨hbwd u huL huj, hne⟩

theorem listInv_samekey {L : List Validator} {K : List PIKey} {v : Validator}
    (v' : Validator)
    (hInv : listInv L K) (hWF : (L.map Validator.operatorAddr).Nodup)
    (hv : v ∈ L) (haddr : v'.operatorAddr = v.operatorAddr)
    (hkey : piKey v' = piKey v) (hj : v'.jailed = v.jailed) :
    listInv (v' :: L.filter (fun u => u.operatorAddr ≠ v'.operatorAddr)) K := by
  obtain ⟨hfwd, hbwd⟩ := hInv
  constructor
  · intro kkey hk
    obtain ⟨u, huL, huj, rfl⟩ := hfwd _ hk
    by_cases hequ : u = v
    · subst hequ
      exact ⟨v', by simp, by rw [hj]; exact huj, by rw [hkey]⟩
    · have haddrne : u.operatorAddr ≠ v'.operatorAddr := by
        rw [haddr]
        intro h
        exact hequ (mem_addr_eq hWF huL hv h)
      refine ⟨u, ?_, huj, rfl⟩
      exact List.mem_cons_of_mem _ (List.mem_filter.mpr ⟨huL, by simpa using haddrne⟩)
  · intro u hu huj
    rcases List.mem_cons.mp hu with rfl | hu'
    · rw [hkey]
      exact hbwd v hv (by rw [← hj]; exact huj)
    · obtain ⟨huL, _⟩ := List.mem_filter.mp hu'
      exact hbwd u huL huj

theorem valsWF_update {L : List Validator}
    (hWF : (L.map Validator.operatorAddr).Nodup) (v' : Validator) :
    ((v' :: L.filter (fun u => u.operatorAddr ≠ v'.operatorAddr)).map
      Validator.operatorAddr).Nodup := by
  simp only [List.map_cons, List.nodup_cons]
  constructor
  · intro hmem
    obtain ⟨u, hu, hequ⟩ := List.mem_map.mp hmem
    have h2 := (List.mem_filter.mp hu).2
    simp only [decide_eq_true_eq] at h2
    exact h2 hequ
  · exact List.Nodup.sublist ((List.filter_sublist _).map _) hWF

theorem valsWF_remove {L : List Validator}
    (hWF : (L.map Validator.operatorAddr).Nodup) (a : Nat) :
    ((L.filter (fun u => u.operatorAddr ≠ a)).map Validator.operatorAddr).Nodup :=
  List.Nodup.sublist ((List.filter_sublist _).map _) hWF

theorem kvDelete_of_not_mem {K : List PIKey} {key : PIKey} (h : key ∉ K) :
    kvDelete K key = K := by
  unfold kvDelete
  apply List.filter_eq_self.mpr
  intro x hx
  have hne : x ≠ key := fun heq => h (heq ▸ hx)
  simpa using hne

theorem jailed_notin_index {L : List Validator} {K : List PIKey} {v : Validator}
    (hInv : listInv L K) (hWF : (L.map Validator.operatorAddr).Nodup)
    (hv : v ∈ L) (hj : v.jailed = true) : piKey v ∉ K := by
  intro hmem
  obtain ⟨u, huL, huj, hk⟩ := hInv.1 _ hmem
  have hequ : u = v := mem_addr_eq hWF huL hv (congrArg PIKey.addr hk).symm
  rw [hequ, hj] at huj
  exact absurd huj (by decide)

theorem pidxInv_of_projs {st' : State} {L : List Validator} {K : List PIKey}
    (hv : st'.vals = L) (hk : st'.powerIndex = K) (h : listInv L K) :
    pidxInv st' := by
  rw [pidxInv, hv, hk]
  exact h

theorem valsWF_of_proj {st' : State} {L : List Validator}
    (hv : st'.vals = L) (h : (L.map Validator.operatorAddr).Nodup) :
    valsWF st' := by
  rw [valsWF, hv]
  exact h

/-! ### Shape lemmas for `RemoveValidator` -/

theorem RemoveValidator_of_not_found {ctx : Ctx} {k : KeeperParams} {st : State}
    {a : Nat} (h : getValidator st a = none) :
    RemoveValidator ctx k st a = st := by
  unfold RemoveValidator
  rw [h]

theorem RemoveValidator_vals {ctx : Ctx} {k : KeeperParams} {st : State}
    {a : Nat} {v : Validator} (h : getValidator st a = some v) :
    (RemoveValidator ctx k st a).vals
      = st.vals.filter (fun u => u.operatorAddr ≠ a) := by
  unfold RemoveValidator
  rw [h]
  simp [apply_ite State.vals]

theorem RemoveValidator_powerIndex {ctx : Ctx} {k : KeeperParams} {st : State}
    {a : Nat} {v : Validator} (h : getValidator st a = some v) :
    (RemoveValidator ctx k st a).powerIndex = kvDelete st.powerIndex (piKey v) := by
  unfold RemoveValidator
  rw [h]
  simp [apply_ite State.powerIndex, consIndexDelete]

theorem RemoveValidator_consIndex {ctx : Ctx} {k : KeeperParams} {st : State}
    {a : Nat} {v : Validator} (h : getValidator st a = some v) :
    (RemoveValidator ctx k st a).consIndex
      = st.consIndex.filter (fun e => e.1 ≠ v.consAddress) := by
  unfold RemoveValidator
  rw [h]
  simp [apply_ite State.consIndex, consIndexDelete, appendEvent]

theorem RemoveValidator_events {ctx : Ctx} {k : KeeperParams} {st : State}
    {a : Nat} {v : Validator} (h : getValidator st a = some v) :
    (RemoveValidator ctx k st a).events
      = if k.pbsbServer ∧ ctx.isDeliverTx then
          Event.validatorRemoved ctx.hasTx v.operatorAddr :: st.events
        else st.events := by
  unfold RemoveValidator
  rw [h]
  simp [apply_ite State.events, consIndexDelete, appendEvent]

theorem RemoveValidator_queue (ctx : Ctx) (k : KeeperParams) (st : State) (a : Nat) :
    (RemoveValidator ctx k st a).queue = st.queue := by
  unfold RemoveValidator
  cases h : getValidator st a with
  | none => rfl
  | some v => simp [apply_ite State.queue, consIndexDelete, appendEvent]

theorem RemoveValidator_lastPower (ctx : Ctx) (k : KeeperParams) (st : State) (a : Nat) :
    (RemoveValidator ctx k st a).lastPower = st.lastPower := by
  unfold RemoveValidator
  cases h : getValidator st a with
  | none => rfl
  | some v => simp [apply_ite State.lastPower, consIndexDelete, appendEvent]

/-- Every engine operation preserves the power-index invariant and store
well-formedness (with the caller obligation on `SetNewValidatorByPowerIndex`). -/
theorem applyOp_preserves (ctx : Ctx) (k : KeeperParams) (st : State) (op : Op)
    (hInv : pidxInv st) (hWF : valsWF st) (hok : opOK st op)
    {st' : State} (h : applyOp ctx k st op = some st') :
    pidxInv st' ∧ valsWF st' := by
  cases op with
  | jail a =>
    cases hget : getValidator st a with
    | none => rw [applyOp, hget] at h; simp at h
    | some v =>
      rw [applyOp, hget] at h
      simp only [Option.some_bind] at h
      unfold jailValidator at h
      by_cases hj : v.jailed
      · rw [if_pos hj] at h; simp at h
      · simp only [if_neg hj, Option.some.injEq] at h
        subst h
        have hmem := getValidator_mem hget
        have hcore := listInv_update {v with jailed := true} hInv hWF hmem rfl
        refine ⟨pidxInv_of_projs ?_ ?_ hcore,
          valsWF_of_proj ?_ (valsWF_update hWF ({v with jailed := true}))⟩ <;>
          simp [piKey]
  | unjail a =>
    cases hget : getValidator st a with
    | none => rw [applyOp, hget] at h; simp at h
    | some v =>
      rw [applyOp, hget] at h
      simp only [Option.some_bind] at h
      unfold unjailValidator at h
      by_cases hj : v.jailed
      · simp only [hj, Bool.not_true, if_neg (by decide : ¬(false = true)),
          Option.some.injEq] at h
        subst h
        have hmem := getValidator_mem hget
        have hnot : piKey v ∉ st.powerIndex :=
          jailed_notin_index hInv hWF hmem hj
        have hcore := listInv_update {v with jailed := false} hInv hWF hmem rfl
        rw [kvDelete_of_not_mem hnot] at hcore
        refine ⟨pidxInv_of_projs ?_ ?_ hcore,
          valsWF_of_proj ?_ (valsWF_update hWF ({v with jailed := false}))⟩ <;>
          simp [piKey, SetValidatorByPowerIndex_powerIndex]
      · rw [Bool.not_eq_true] at hj
        simp only [hj, Bool.not_false, if_pos rfl] at h
        simp at h
  | bond a =>
    cases hget : getValidator st a with
    | none => rw [applyOp, hget] at h; simp at h
    | some v =>
      rw [applyOp, hget] at h
      simp only [Option.map_some', Option.some.injEq] at h
      subst h
      have hmem := getValidator_mem hget
      have hcore := listInv_update
        {v with bondHeight := ctx.blockHeight, status := .bonded}
        hInv hWF hmem rfl
      refine ⟨pidxInv_of_projs ?_ ?_ hcore,
        valsWF_of_proj ?_ (valsWF_update hWF
          ({v with bondHeight := ctx.blockHeight, status := .bonded}))⟩ <;>
        simp [piKey, bondValidator, UpdateStatus, SetValidatorByPowerIndex_powerIndex,
          apply_ite State.vals, apply_ite State.powerIndex, appendEvent]
  | beginUnbonding a =>
    cases hget : getValidator st a with
    | none => rw [applyOp, hget] at h; simp at h
    | some v =>
      rw [applyOp, hget] at h
      simp only [Option.some_bind] at h
      unfold bondedToUnbonding at h
      by_cases hs : v.status = BondStatus.bonded
      · rw [if_neg (by simp [hs])] at h
        unfold beginUnbondingValidator at h
        rw [if_neg (by simp [hs])] at h
        simp only [UpdateStatus, Option.map_some', Option.some.injEq] at h
        subst h
        have hmem := getValidator_mem hget
        have hcore := listInv_update
          {v with status := .unbonding,
                  unbondingMinTime := ctx.blockTime + k.unbondingTime,
                  unbondingHeight := ctx.blockHeight}
          hInv hWF hmem rfl
        refine ⟨pidxInv_of_projs ?_ ?_ hcore,
          valsWF_of_proj ?_ (valsWF_update hWF
            ({v with status := .unbonding,
                     unbondingMinTime := ctx.blockTime + k.unbondingTime,
                     unbondingHeight := ctx.blockHeight}))⟩ <;>
          simp [piKey, SetValidatorByPowerIndex_powerIndex,
            apply_ite State.vals, apply_ite State.powerIndex, appendEvent]
      · rw [if_pos (by simp [hs])] at h
        simp at h
  | completeUnbonding a =>
    cases hget : getValidator st a with
    | none => rw [applyOp, hget] at h; simp at h
    | some v =>
      rw [applyOp, hget] at h
      simp only [Option.some_bind] at h
      unfold unbondingToUnbonded at h
      by_cases hs : v.status = BondStatus.unbonding
      · rw [if_neg (by simp [hs])] at h
        simp only [completeUnbondingValidator, UpdateStatus, Option.map_some',
          Option.some.injEq] at h
        subst h
        have hmem := getValidator_mem hget
        have hcore := listInv_samekey {v with status := .unbonded}
          hInv hWF hmem rfl rfl rfl
        refine ⟨pidxInv_of_projs ?_ ?_ hcore,
          valsWF_of_proj ?_ (valsWF_update hWF ({v with status := .unbonded}))⟩ <;>
          simp
      · rw [if_pos (by simp [hs])] at h
        simp at h
  | addTokens a amt =>
    cases hget : getValidator st a with
    | none => rw [applyOp, hget] at h; simp at h
    | some v =>
      rw [applyOp, hget] at h
      simp only [Option.map_some', Option.some.injEq] at h
      subst h
      have hmem := getValidator_mem hget
      have hcore := listInv_update
        {v with
          tokens := v.tokens + amt,
          delegatorShares := v.delegatorShares +
            (if v.tokens = 0 then amt else v.delegatorShares * amt / v.tokens),
          bondIntraTxCounter := st.intraTxCounter}
        hInv hWF hmem rfl
      refine ⟨pidxInv_of_projs ?_ ?_ hcore,
        valsWF_of_proj ?_ (valsWF_update hWF
          ({v with
            tokens := v.tokens + amt,
            delegatorShares := v.delegatorShares +
              (if v.tokens = 0 then amt else v.delegatorShares * amt / v.tokens),
            bondIntraTxCounter := st.intraTxCounter}))⟩ <;>
        simp [piKey, AddValidatorTokensAndShares, AddTokensFromDel, GetIntraTxCounter,
          SetValidatorByPowerIndex_powerIndex, apply_ite State.vals,
          apply_ite State.powerIndex]
  | removeShares a sh =>
    cases hget : getValidator st a with
    | none => rw [applyOp, hget] at h; simp at h
    | some v =>
      rw [applyOp, hget] at h
      simp only [Option.map_some', Option.some.injEq] at h
      subst h
      have hmem := getValidator_mem hget
      have hcore := listInv_update
        {v with
          tokens := v.tokens -
            (if v.delegatorShares = 0 then 0 else sh * v.tokens / v.delegatorShares),
          delegatorShares := v.delegatorShares - sh}
        hInv hWF hmem rfl
      refine ⟨pidxInv_of_projs ?_ ?_ hcore,
        valsWF_of_proj ?_ (valsWF_update hWF
          ({v with
            tokens := v.tokens -
              (if v.delegatorShares = 0 then 0 else sh * v.tokens / v.delegatorShares),
            delegatorShares := v.delegatorShares - sh}))⟩ <;>
        simp [piKey, RemoveValidatorTokensAndShares, RemoveDelShares,
          SetValidatorByPowerIndex_powerIndex, apply_ite State.vals,
          apply_ite State.powerIndex]
  | removeTokens a amt =>
    cases hget : getValidator st a with
    | none => rw [applyOp, hget] at h; simp at h
    | some v =>
      rw [applyOp, hget] at h
      simp only [Option.map_some', Option.some.injEq] at h
      subst h
      have hmem := getValidator_mem hget
      have hcore := listInv_update {v with tokens := v.tokens - amt}
        hInv hWF hmem rfl
      refine ⟨pidxInv_of_projs ?_ ?_ hcore,
        valsWF_of_proj ?_ (valsWF_update hWF ({v with tokens := v.tokens - amt}))⟩ <;>
        simp [piKey, RemoveValidatorTokens, RemoveTokens,
          SetValidatorByPowerIndex_powerIndex, apply_ite State.vals,
          apply_ite State.powerIndex]
  | removeValidator a =>
    rw [applyOp, Option.some.injEq] at h
    subst h
    cases hget : getValidator st a with
    | none =>
      rw [RemoveValidator_of_not_found hget]
      exact ⟨hInv, hWF⟩
    | some v =>
      have hmem := getValidator_mem hget
      have haddr := getValidator_addr hget
      have hcore := listInv_remove hInv hWF hmem
      constructor
      · refine pidxInv_of_projs (RemoveValidator_vals hget)
          (RemoveValidator_powerIndex hget) ?_
        rw [haddr] at hcore
        exact hcore
      · exact valsWF_of_proj (RemoveValidator_vals hget) (valsWF_remove hWF a)
  | setNewByPowerIndex a =>
    cases hget : getValidator st a with
    | none => rw [applyOp, hget] at h; simp at h
    | some v =>
      rw [applyOp, hget] at h
      simp only [Option.map_some', Option.some.injEq] at h
      subst h
      have hmem := getValidator_mem hget
      have hj : v.jailed = false := by
        rw [opOK, hget] at hok
        simpa using hok
      have hin : piKey v ∈ st.powerIndex := hInv.2 v hmem hj
      refine ⟨pidxInv_of_projs (L := st.vals) (K := st.powerIndex)
        (by simp) ?_ hInv, valsWF_of_proj (by simp) hWF⟩
      simp [kvSet_of_mem hin]

/-! ### Lookup lemmas through state mutations -/

theorem find?_filter_ne {l : List Validator} {b a : Nat} (h : b ≠ a) :
    (l.filter (fun u => u.operatorAddr ≠ b)).find? (fun u => u.operatorAddr == a)
      = l.find? (fun u => u.operatorAddr == a) := by
  induction l with
  | nil => rfl
  | cons x xs ih =>
    by_cases hx : x.operatorAddr = b
    · rw [List.filter_cons_of_neg (by simp [hx])]
      rw [List.find?_cons_of_neg _ (by simp [hx, h])]
      exact ih
    · rw [List.filter_cons_of_pos (by simp [hx])]
      by_cases hpa : x.operatorAddr = a
      · rw [List.find?_cons_of_pos _ (by simp [hpa]),
          List.find?_cons_of_pos _ (by simp [hpa])]
      · rw [List.find?_cons_of_neg _ (by simp [hpa]),
          List.find?_cons_of_neg _ (by simp [hpa])]
        exact ih

theorem getValidator_shape (st' st : State) {w : Validator} {c : Nat}
    (haddr : w.operatorAddr = c)
    (hv : st'.vals = w :: st.vals.filter (fun u => u.operatorAddr ≠ c)) :
    getValidator st' c = some w ∧
    ∀ b, b ≠ c → getValidator st' b = getValidator st b := by
  constructor
  · unfold getValidator
    rw [hv]
    exact List.find?_cons_of_pos _ (by simp [haddr])
  · intro b hb
    unfold getValidator
    rw [hv]
    rw [List.find?_cons_of_neg _ (by simp [haddr, Ne.symm hb])]
    exact find?_filter_ne (fun heq => hb heq.symm)

theorem getValidator_RemoveValidator_self (ctx : Ctx) (k : KeeperParams)
    (st : State) (a : Nat) :
    getValidator (RemoveValidator ctx k st a) a = none := by
  cases hget : getValidator st a with
  | none => rw [RemoveValidator_of_not_found hget]; exact hget
  | some v =>
    unfold getValidator
    rw [RemoveValidator_vals hget]
    apply List.find?_eq_none.mpr
    intro x hx
    have h2 := (List.mem_filter.mp hx).2
    simp only [decide_eq_true_eq] at h2
    simp [h2]

theorem getValidator_RemoveValidator_ne {ctx : Ctx} {k : KeeperParams}
    {st : State} {a b : Nat} (hb : b ≠ a) :
    getValidator (RemoveValidator ctx k st a) b = getValidator st b := by
  cases hget : getValidator st a with
  | none => rw [RemoveValidator_of_not_found hget]
  | some v =>
    unfold getValidator
    rw [RemoveValidator_vals hget]
    exact find?_filter_ne (fun heq => hb heq.symm)

theorem bondValidator_snd (ctx : Ctx) (k : KeeperParams) (st : State) (v : Validator) :
    (bondValidator ctx k st v).2
      = {v with bondHeight := ctx.blockHeight, status := .bonded} := by
  simp [bondValidator, UpdateStatus]

theorem bondValidator_fst_vals (ctx : Ctx) (k : KeeperParams) (st : State) (v : Validator) :
    (bondValidator ctx k st v).1.vals
      = {v with bondHeight := ctx.blockHeight, status := .bonded} ::
        st.vals.filter (fun u => u.operatorAddr ≠ v.operatorAddr) := by
  simp [bondValidator, UpdateStatus, apply_ite State.vals, appendEvent]

/-- The candidate-loop status switch always succeeds on a fetched record and
produces a bonded validator with the same operator, tokens, shares, consensus
identity and jailed flag; lookups at other operators are untouched. -/
theorem candStep_spec {ctx : Ctx} {k : KeeperParams} {st : State} {op : Nat}
    {v : Validator} (hget : getValidator st op = some v) :
    ∃ stA v',
      candStep ctx k st v = some (stA, v') ∧
      v'.operatorAddr = op ∧ v'.tokens = v.tokens ∧
      v'.status = BondStatus.bonded ∧ v'.consId = v.consId ∧
      v'.jailed = v.jailed ∧ v'.delegatorShares = v.delegatorShares ∧
      getValidator stA op = some v' ∧
      (∀ b, b ≠ op → getValidator stA b = getValidator st b) := by
  have haddr := getValidator_addr hget
  cases hs : v.status with
  | bonded =>
    exact ⟨st, v, by simp [candStep, hs], haddr, rfl, hs, rfl, rfl, rfl, hget,
      fun b hb => rfl⟩
  | unbonded =>
    have hpair : candStep ctx k st v
        = some ((bondValidator ctx k st v).1, (bondValidator ctx k st v).2) := by
      simp [candStep, hs, unbondedToBonded]
    rw [bondValidator_snd] at hpair
    obtain ⟨h1, h2⟩ := getValidator_shape (bondValidator ctx k st v).1 st
      (w := {v with bondHeight := ctx.blockHeight, status := .bonded}) (c := op)
      (by simpa using haddr)
      (by rw [bondValidator_fst_vals, haddr])
    exact ⟨(bondValidator ctx k st v).1,
      {v with bondHeight := ctx.blockHeight, status := .bonded},
      hpair, by simpa using haddr, rfl, rfl, rfl, rfl, rfl, h1, h2⟩
  | unbonding =>
    have hpair : candStep ctx k st v
        = some ((bondValidator ctx k st v).1, (bondValidator ctx k st v).2) := by
      simp [candStep, hs, unbondingToBonded]
    rw [bondValidator_snd] at hpair
    obtain ⟨h1, h2⟩ := getValidator_shape (bondValidator ctx k st v).1 st
      (w := {v with bondHeight := ctx.blockHeight, status := .bonded}) (c := op)
      (by simpa using haddr)
      (by rw [bondValidator_fst_vals, haddr])
    exact ⟨(bondValidator ctx k st v).1,
      {v with bondHeight := ctx.blockHeight, status := .bonded},
      hpair, by simpa using haddr, rfl, rfl, rfl, rfl, rfl, h1, h2⟩

/-! ### Queue lemmas for the drain -/

theorem processMaturedAddr_queue (ctx : Ctx) (k : KeeperParams) (st : State) (a : Nat) :
    (processMaturedAddr ctx k st a).queue = st.queue := by
  unfold processMaturedAddr
  cases hget : getValidator st a with
  | none => rfl
  | some v =>
    dsimp only
    by_cases hu : v.status = BondStatus.unbonding
    · rw [if_neg (by simp [Validator.isUnbonding, hu])]
      unfold unbondingToUnbonded
      rw [if_neg (by simp [hu])]
      simp [completeUnbondingValidator, UpdateStatus, apply_ite State.queue,
        RemoveValidator_queue]
    · rw [if_pos (by simp [Validator.isUnbonding, hu])]

theorem foldAddrs_queue (ctx : Ctx) (k : KeeperParams) :
    ∀ (addrs : List Nat) (st : State),
      (addrs.foldl (fun st a => processMaturedAddr ctx k st a) st).queue = st.queue := by
  intro addrs
  induction addrs with
  | nil => intro st; rfl
  | cons a rest ih =>
    intro st
    rw [List.foldl_cons, ih, processMaturedAddr_queue]

theorem processMaturedSlice_queue (ctx : Ctx) (k : KeeperParams) (st : State)
    (e : Nat × List Nat) :
    (processMaturedSlice ctx k st e).queue = st.queue.filter (fun f => f.1 ≠ e.1) := by
  unfold processMaturedSlice
  rw [deleteQueueTime_queue, foldAddrs_queue]

theorem foldSlices_queue_mem (ctx : Ctx) (k : KeeperParams) :
    ∀ (L : List (Nat × List Nat)) (st : State) (f : Nat × List Nat),
      f ∈ (L.foldl (fun st e => processMaturedSlice ctx k st e) st).queue
        ↔ f ∈ st.queue ∧ f.1 ∉ L.map Prod.fst := by
  intro L
  induction L with
  | nil => intro st f; simp
  | cons e rest ih =>
    intro st f
    rw [List.foldl_cons, ih]
    constructor
    · rintro ⟨hf, hrest⟩
      rw [processMaturedSlice_queue] at hf
      obtain ⟨hf1, hf2⟩ := List.mem_filter.mp hf
      simp only [decide_eq_true_eq] at hf2
      refine ⟨hf1, ?_⟩
      simp only [List.map_cons, List.mem_cons]
      rintro (h | h)
      · exact hf2 h
      · exact hrest h
    · rintro ⟨hf, hni⟩
      simp only [List.map_cons, List.mem_cons] at hni
      push_neg at hni
      refine ⟨?_, hni.2⟩
      rw [processMaturedSlice_queue]
      exact List.mem_filter.mpr ⟨hf, by simpa using hni.1⟩

/-- C7: draining the unbonding queue is idempotent — a second
`UnbondAllMatureValidatorQueue` at the same block time leaves the state
(records, indices, pool, and the hook/event log) entirely unchanged, because
the first call deleted every matured timeslice and matured processing never
inserts a timeslice at or before the block time. -/
theorem unbondAllMatureValidatorQueue_idempotent (ctx : Ctx) (k : KeeperParams)
    (st : State) :
    UnbondAllMatureValidatorQueue ctx k (UnbondAllMatureValidatorQueue ctx k st)
      = UnbondAllMatureValidatorQueue ctx k st := by
  have hqueue : ((UnbondAllMatureValidatorQueue ctx k st).queue.filter
      (fun e => e.1 ≤ ctx.blockTime)) = [] := by
    apply List.filter_eq_nil_iff.mpr
    intro e he
    rw [UnbondAllMatureValidatorQueue] at he
    rw [foldSlices_queue_mem] at he
    obtain ⟨heq, hni⟩ := he
    simp only [decide_eq_true_eq]
    intro hle
    apply hni
    have hmem : e ∈ st.queue.filter (fun f => f.1 ≤ ctx.blockTime) :=
      List.mem_filter.mpr ⟨heq, by simpa using hle⟩
    have hmem2 : e ∈ sortBy (fun a b => a.1 ≤ b.1)
        (st.queue.filter (fun f => f.1 ≤ ctx.blockTime)) :=
      ((sortBy_perm _ _).mem_iff).mpr hmem
    exact List.mem_map.mpr ⟨e, hmem2, rfl⟩
  show (sortBy (fun a b => a.1 ≤ b.1)
      ((UnbondAllMatureValidatorQueue ctx k st).queue.filter
        (fun e => e.1 ≤ ctx.blockTime))).foldl
      (fun st e => processMaturedSlice ctx k st e)
      (UnbondAllMatureValidatorQueue ctx k st)
    = UnbondAllMatureValidatorQueue ctx k st
  rw [hqueue]
  rfl

/-! ### C10: removing a missing validator is a silent no-op -/

/-- C10: `RemoveValidator` with an operator address for which no record
exists returns without panicking, deletes nothing, and leaves every keyspace
of the store unchanged. -/
theorem removeValidator_missing_noop (ctx : Ctx) (k : KeeperParams) (st : State)
    (a : Nat) (h : getValidator st a = none) :
    RemoveValidator ctx k st a = st :=
  RemoveValidator_of_not_found h

theorem removeValidator_missing_noop_witness :
    getValidator emptyState 5 = none ∧
    RemoveValidator baseCtx baseParams emptyState 5 = emptyState :=
  ⟨by decide, removeValidator_missing_noop baseCtx baseParams emptyState 5 (by decide)⟩

/-! ### C8: commission validation failures mutate nothing -/

/-- C8: when the proposed commission rate fails validation,
`UpdateValidatorCommission` returns the typed error together with the
validator's original commission, and the store state is returned unmodified
(the function performs no writes). -/
theorem updateValidatorCommission_error_keeps_state (ctx : Ctx) (st : State)
    (v : Validator) (newRate : Int) (e : CommissionErr)
    (h : validateNewRate v.commission newRate ctx.blockTime = some e) :
    UpdateValidatorCommission ctx st v newRate = (st, v.commission, some e) := by
  simp only [UpdateValidatorCommission, h]

theorem updateValidatorCommission_error_keeps_state_witness :
    validateNewRate vMain.commission (-1) baseCtx.blockTime
        = some CommissionErr.outsideBounds ∧
    UpdateValidatorCommission baseCtx stW1 vMain (-1)
        = (stW1, vMain.commission, some CommissionErr.outsideBounds) :=
  ⟨by decide,
   updateValidatorCommission_error_keeps_state baseCtx stW1 vMain (-1)
     CommissionErr.outsideBounds (by decide)⟩

/-! ### C3: intra-tx counter assignment -/

/-- C3 (amended): `AddValidatorTokensAndShares` assigns the validator the
current intra-tx counter and increments the stored counter, while
`RemoveValidatorTokensAndShares` leaves both the validator's counter and the
stored counter untouched. -/
theorem intraTxCounter_assignment (ctx : Ctx) (k : KeeperParams) (st : State)
    (v : Validator) (amt sh : Int) :
    ((AddValidatorTokensAndShares ctx k st v amt).2.1).bondIntraTxCounter
        = st.intraTxCounter ∧
    ((AddValidatorTokensAndShares ctx k st v amt).1).intraTxCounter
        = st.intraTxCounter + 1 ∧
    ((RemoveValidatorTokensAndShares ctx k st v sh).2.1).bondIntraTxCounter
        = v.bondIntraTxCounter ∧
    ((RemoveValidatorTokensAndShares ctx k st v sh).1).intraTxCounter
        = st.intraTxCounter := by
  refine ⟨?_, ?_, ?_, ?_⟩ <;>
    simp [AddValidatorTokensAndShares, AddTokensFromDel, GetIntraTxCounter,
      SetIntraTxCounter, RemoveValidatorTokensAndShares, RemoveDelShares]

/-- C3 counterexample: `RemoveValidatorTokensAndShares` does not assign a
fresh intra-tx counter — on a store whose counter is 7 and a validator whose
counter is 5, the result keeps counter 5 and the stored counter stays 7. -/
theorem removeShares_no_fresh_counter :
    ¬ (((RemoveValidatorTokensAndShares baseCtx baseParams st3cex v3cex 2).2.1).bondIntraTxCounter
          = st3cex.intraTxCounter ∧
       ((RemoveValidatorTokensAndShares baseCtx baseParams st3cex v3cex 2).1).intraTxCounter
          = st3cex.intraTxCounter + 1) := by
  decide

/-! ### C6: RemoveValidator on an existing record -/

/-- C6 (amended): for an existing record, `RemoveValidator` deletes the
validator record, its consensus-identity index entry and its power-index key,
and publishes a removed event exactly when the pub-sub server is wired and
the context is a DeliverTx (outside DeliverTx no removed notification is
emitted). -/
theorem removeValidator_found_spec (ctx : Ctx) (k : KeeperParams) (st : State)
    (a : Nat) (v : Validator) (h : getValidator st a = some v) :
    getValidator (RemoveValidator ctx k st a) a = none ∧
    (RemoveValidator ctx k st a).consIndex
      = st.consIndex.filter (fun e => e.1 ≠ v.consAddress) ∧
    (RemoveValidator ctx k st a).powerIndex = kvDelete st.powerIndex (piKey v) ∧
    (RemoveValidator ctx k st a).events
      = (if k.pbsbServer ∧ ctx.isDeliverTx
          then [Event.validatorRemoved ctx.hasTx v.operatorAddr] else [])
        ++ st.events := by
  refine ⟨getValidator_RemoveValidator_self ctx k st a,
    RemoveValidator_consIndex h, RemoveValidator_powerIndex h, ?_⟩
  rw [RemoveValidator_events h]
  by_cases hc : k.pbsbServer ∧ ctx.isDeliverTx
  · rw [if_pos hc, if_pos hc]
    rfl
  · rw [if_neg hc, if_neg hc]
    rfl

theorem removeValidator_found_spec_witness :
    getValidator stSide 2 = some vSide ∧
    (getValidator (RemoveValidator deliverCtx baseParams stSide 2) 2 = none ∧
     (RemoveValidator deliverCtx baseParams stSide 2).consIndex
       = stSide.consIndex.filter (fun e => e.1 ≠ vSide.consAddress) ∧
     (RemoveValidator deliverCtx baseParams stSide 2).powerIndex
       = kvDelete stSide.powerIndex (piKey vSide) ∧
     (RemoveValidator deliverCtx baseParams stSide 2).events
       = (if baseParams.pbsbServer ∧ deliverCtx.isDeliverTx
           then [Event.validatorRemoved deliverCtx.hasTx vSide.operatorAddr] else [])
         ++ stSide.events) :=
  ⟨by decide,
   removeValidator_found_spec deliverCtx baseParams stSide 2 vSide (by decide)⟩

/-- C6 counterexample: with the pub-sub server wired but outside a DeliverTx
context (the end-of-block context in which the diff engine removes
validators), `RemoveValidator` deletes the record yet publishes no removed
event, so removal does not always fire a removed notification. -/
theorem removeValidator_no_hook_outside_deliverTx :
    getValidator stSide 2 = some vSide ∧
    getValidator (RemoveValidator baseCtx baseParams stSide 2) 2 = none ∧
    (RemoveValidator baseCtx baseParams stSide 2).events = [] := by
  decide

/-! ### C4: the power-index jailed exclusion -/

/-- C4 (amended): every engine operation preserves the power-index
invariant — afterwards a jailed validator has no entry in the power index and
a non-jailed validator's key is present — provided the one insertion path
without a jailed guard, `SetNewValidatorByPowerIndex`, is only invoked on
non-jailed validators (all other paths carry their own guard). -/
theorem powerIndex_jailed_exclusion (ctx : Ctx) (k : KeeperParams) (st : State)
    (op : Op) (hInv : pidxInv st) (hWF : valsWF st) (hok : opOK st op)
    {st' : State} (h : applyOp ctx k st op = some st') :
    pidxInv st' ∧
    (∀ v ∈ st'.vals, v.jailed = true →
      ∀ kkey ∈ st'.powerIndex, kkey.addr ≠ v.operatorAddr) ∧
    (∀ v ∈ st'.vals, v.jailed = false → piKey v ∈ st'.powerIndex) := by
  obtain ⟨hInv', hWF'⟩ := applyOp_preserves ctx k st op hInv hWF hok h
  refine ⟨hInv', ?_, hInv'.2⟩
  intro v hv hj kkey hk haddr
  obtain ⟨u, huL, huj, hkey⟩ := hInv'.1 _ hk
  have haddru : u.operatorAddr = v.operatorAddr := by
    rw [← piKey_addr u, ← hkey]
    exact haddr
  have hequ : u = v := mem_addr_eq hWF' huL hv haddru
  rw [hequ, hj] at huj
  exact absurd huj (by decide)

/-- C4 counterexample: `SetNewValidatorByPowerIndex` is an insertion path
that does not preserve the jailed exclusion — applied to a stored jailed
validator in a state satisfying the invariant, it inserts the jailed
validator's key into the power index. -/
theorem setNewByPowerIndex_breaks_jailed_exclusion :
    pidxInv st4cex ∧ valsWF st4cex ∧
    applyOp baseCtx baseParams st4cex (Op.setNewByPowerIndex 1)
      = some {st4cex with powerIndex := [piKey vJail]} ∧
    vJail.jailed = true ∧ vJail ∈ st4cex.vals ∧
    piKey vJail ∈ ({st4cex with powerIndex := [piKey vJail]} : State).powerIndex := by
  refine ⟨?_, ?_, by decide, by decide, by decide, by decide⟩
  · unfold pidxInv listInv
    decide
  · unfold valsWF
    decide

theorem powerIndex_jailed_exclusion_witness :
    (pidxInv stW4 ∧ valsWF stW4 ∧ opOK stW4 (Op.jail 1)) ∧
    (pidxInv st4cex ∧
     (∀ v ∈ st4cex.vals, v.jailed = true →
        ∀ kkey ∈ st4cex.powerIndex, kkey.addr ≠ v.operatorAddr) ∧
     (∀ v ∈ st4cex.vals, v.jailed = false → piKey v ∈ st4cex.powerIndex)) := by
  have h1 : pidxInv stW4 := by unfold pidxInv listInv; decide
  have h2 : valsWF stW4 := by unfold valsWF; decide
  have h3 : opOK stW4 (Op.jail 1) := trivial
  have h4 : applyOp baseCtx baseParams stW4 (Op.jail 1) = some st4cex := by decide
  exact ⟨⟨h1, h2, h3⟩,
    powerIndex_jailed_exclusion baseCtx baseParams stW4 (Op.jail 1) h1 h2 h3 h4⟩

/-! ### C5: a zero-power candidate terminates the candidate iteration -/

/-- C5: in the candidate loop, a candidate whose token balance is zero (and
who, like every power-index resident, is not jailed) terminates the iteration
entirely: running the loop on any iteration list extending past that
candidate gives exactly the same result — same state, same bonded set, same
update records — as running it only on the candidates before it.  No
validator later in the iteration is bonded or produces an update record. -/
theorem candLoop_zero_break (ctx : Ctx) (k : KeeperParams) :
    ∀ (pre post : List Nat) (zop : Nat) (st : State) (last : List (Nat × Int))
      (cr : Nat) (nv : List Validator) (upd : List UpdateRec) (tot : Int)
      (vz : Validator),
      getValidator st zop = some vz → vz.jailed = false → vz.tokens = 0 →
      candLoop ctx k (pre ++ zop :: post) st last cr nv upd tot
        = candLoop ctx k pre st last cr nv upd tot := by
  intro pre
  induction pre with
  | nil =>
    intro post zop st last cr nv upd tot vz hget hj hz
    rw [List.nil_append]
    simp only [candLoop]
    by_cases hcr : cr = 0
    · rw [if_pos hcr]
    · rw [if_neg hcr, hget]
      dsimp only
      rw [if_neg (by simp [hj]), if_pos hz]
  | cons p pre' ih =>
    intro post zop st last cr nv upd tot vz hget hj hz
    rw [List.cons_append]
    simp only [candLoop]
    by_cases hcr : cr = 0
    · rw [if_pos hcr, if_pos hcr]
    · rw [if_neg hcr, if_neg hcr]
      cases hgp : getValidator st p with
      | none => rfl
      | some v =>
        dsimp only
        by_cases hjp : v.jailed
        · rw [if_pos hjp, if_pos hjp]
        · by_cases hzp : v.tokens = 0
          · rw [if_neg hjp, if_neg hjp, if_pos hzp, if_pos hzp]
          · rw [if_neg hjp, if_neg hjp, if_neg hzp, if_neg hzp]
            obtain ⟨stA, v', hstep, haddr', htok', hstat', hcid', hjl', hsh',
              hself, hother⟩ := candStep_spec hgp
            rw [hstep]
            dsimp only
            have hpz : p ≠ zop := by
              intro heq
              rw [heq, hget] at hgp
              injection hgp with hv
              rw [← hv] at hzp
              exact hzp hz
            have hA : getValidator stA zop = some vz := by
              rw [hother zop (fun heq => hpz heq.symm)]
              exact hget
            refine ih post zop _ _ _ _ _ _ vz ?_ hj hz
            split
            · exact hA
            · exact hA

theorem candLoop_zero_break_witness :
    (getValidator stZero 3 = some vZero ∧ vZero.jailed = false ∧
      vZero.tokens = 0) ∧
    candLoop baseCtx baseParams ([] ++ 3 :: [99]) stZero [] 2 [] [] 0
      = candLoop baseCtx baseParams [] stZero [] 2 [] [] 0 :=
  ⟨⟨by decide, by decide, by decide⟩,
   candLoop_zero_break baseCtx baseParams [] [99] 3 stZero [] 2 [] [] 0 vZero
     (by decide) (by decide) (by decide)⟩

/-! ### C9: side-chain validators never contribute update records -/

theorem consPubKey_congr {u v : Validator} (h : u.consId = v.consId) :
    u.consPubKey = v.consPubKey := by
  unfold Validator.consPubKey
  rw [h]

theorem beginUnbonding_map_vals (ctx : Ctx) (k : KeeperParams) (st : State)
    (v : Validator) (hs : v.status = BondStatus.bonded) :
    (beginUnbondingValidator ctx k st v).map (fun r => r.1.vals)
      = some ({v with status := .unbonding,
                      unbondingMinTime := ctx.blockTime + k.unbondingTime,
                      unbondingHeight := ctx.blockHeight} ::
          st.vals.filter (fun u => u.operatorAddr ≠ v.operatorAddr)) := by
  unfold beginUnbondingValidator
  rw [if_neg (by simp [hs])]
  simp [UpdateStatus, apply_ite State.vals, appendEvent]

/-- After `bondedToUnbonding` succeeds, the processed operator's record has
moved to Unbonding (with the maturity fields set) and every other lookup is
untouched. -/
theorem bondedToUnbonding_spec {ctx : Ctx} {k : KeeperParams} {st : State}
    {v : Validator} {stA : State} {vA : Validator}
    (h : bondedToUnbonding ctx k st v = some (stA, vA)) :
    getValidator stA v.operatorAddr
      = some {v with status := .unbonding,
                     unbondingMinTime := ctx.blockTime + k.unbondingTime,
                     unbondingHeight := ctx.blockHeight} ∧
    (∀ b, b ≠ v.operatorAddr → getValidator stA b = getValidator st b) := by
  unfold bondedToUnbonding at h
  by_cases hs : v.status = BondStatus.bonded
  · rw [if_neg (by simp [hs])] at h
    have hv := beginUnbonding_map_vals ctx k st v hs
    rw [h] at hv
    simp only [Option.map_some', Option.some.injEq] at hv
    exact getValidator_shape _ _ (by simp) hv
  · rw [if_pos (by simp [hs])] at h
    exact Option.noConfusion h

/-- Through the candidate loop, an operator with no consensus public key
never gains an update record, and its record (if any) still has no consensus
public key afterwards. -/
theorem candLoop_no_cons (ctx : Ctx) (k : KeeperParams) :
    ∀ (ops : List Nat) (st : State) (last : List (Nat × Int)) (cr : Nat)
      (nv : List Validator) (upd : List UpdateRec) (tot : Int)
      {st₁ : State} {last₁ : List (Nat × Int)} {nv₁ : List Validator}
      {upd₁ : List UpdateRec} {tot₁ : Int},
      candLoop ctx k ops st last cr nv upd tot
        = some (st₁, last₁, nv₁, upd₁, tot₁) →
      ∀ a : Nat,
      (getValidator st a).bind Validator.consPubKey = none →
      (∀ u ∈ upd, u.operator ≠ a) →
      (∀ u ∈ upd₁, u.operator ≠ a) ∧
      (getValidator st₁ a).bind Validator.consPubKey = none := by
  intro ops
  induction ops with
  | nil =>
    intro st last cr nv upd tot st₁ last₁ nv₁ upd₁ tot₁ h a ha hupd
    simp only [candLoop, Option.some.injEq, Prod.mk.injEq] at h
    obtain ⟨h1, -, -, h4, -⟩ := h
    subst h1
    refine ⟨?_, ha⟩
    intro u hu
    exact hupd u (h4 ▸ hu)
  | cons op rest ih =>
    intro st last cr nv upd tot st₁ last₁ nv₁ upd₁ tot₁ h a ha hupd
    simp only [candLoop] at h
    by_cases hcr : cr = 0
    · rw [if_pos hcr] at h
      simp only [Option.some.injEq, Prod.mk.injEq] at h
      obtain ⟨h1, -, -, h4, -⟩ := h
      subst h1
      refine ⟨?_, ha⟩
      intro u hu
      exact hupd u (h4 ▸ hu)
    · rw [if_neg hcr] at h
      cases hgp : getValidator st op with
      | none =>
        rw [hgp] at h
        exact Option.noConfusion h
      | some v =>
        rw [hgp] at h
        dsimp only at h
        by_cases hjp : v.jailed
        · rw [if_pos hjp] at h
          exact Option.noConfusion h
        · rw [if_neg hjp] at h
          by_cases hzp : v.tokens = 0
          · rw [if_pos hzp] at h
            simp only [Option.some.injEq, Prod.mk.injEq] at h
            obtain ⟨h1, -, -, h4, -⟩ := h
            subst h1
            refine ⟨?_, ha⟩
            intro u hu
            exact hupd u (h4 ▸ hu)
          · rw [if_neg hzp] at h
            obtain ⟨stA, v', hstep, haddr', htok', hstat', hcid', hjl', hsh',
              hself, hother⟩ := candStep_spec hgp
            rw [hstep] at h
            dsimp only at h
            by_cases hopa : op = a
            · subst hopa
              rw [hgp] at ha
              have hnone : v.consPubKey = none := by simpa using ha
              have hnone' : v'.consPubKey = none := by
                rw [consPubKey_congr hcid']
                exact hnone
              simp only [hnone', Option.isSome_none, Bool.false_eq_true,
                if_false] at h
              have hpres : ∀ s : State,
                  getValidator s op = some v' →
                  (getValidator s op).bind Validator.consPubKey = none := by
                intro s hgs
                rw [hgs]
                simpa using hnone'
              refine ih _ _ _ _ _ _ h op ?_ ?_
              · split
                · exact hpres _ hself
                · exact hpres _ hself
              · split
                · exact hupd
                · exact hupd
            · have hane : a ≠ op := fun heq => hopa heq.symm
              have hpres : (getValidator stA a).bind Validator.consPubKey = none := by
                rw [hother a hane]
                exact ha
              refine ih _ _ _ _ _ _ h a ?_ ?_
              · split
                · exact hpres
                · exact hpres
              · split
                · show ∀ u ∈ (if v'.consPubKey.isSome = true then
                      upd ++ [ABCIValidatorUpdate v'] else upd), u.operator ≠ a
                  by_cases hpk : v'.consPubKey.isSome = true
                  · rw [if_pos hpk]
                    intro u hu
                    rcases List.mem_append.mp hu with hu1 | hu2
                    · exact hupd u hu1
                    · have huv : u = ABCIValidatorUpdate v' := by simpa using hu2
                      subst huv
                      show v'.operatorAddr ≠ a
                      rw [haddr']
                      exact hopa
                  · rw [if_neg hpk]
                    exact hupd
                · exact hupd

/-- Through the no-longer-bonded loop, an operator with no consensus public
key never gains an update record. -/
theorem removalLoop_no_cons (ctx : Ctx) (k : KeeperParams) :
    ∀ (ops : List Nat) (st : State) (upd : List UpdateRec)
      {st₁ : State} {upd₁ : List UpdateRec},
      removalLoop ctx k ops st upd = some (st₁, upd₁) →
      ∀ a : Nat,
      (getValidator st a).bind Validator.consPubKey = none →
      (∀ u ∈ upd, u.operator ≠ a) →
      ∀ u ∈ upd₁, u.operator ≠ a := by
  intro ops
  induction ops with
  | nil =>
    intro st upd st₁ upd₁ h a ha hupd
    simp only [removalLoop, Option.some.injEq, Prod.mk.injEq] at h
    obtain ⟨-, h2⟩ := h
    intro u hu
    exact hupd u (h2 ▸ hu)
  | cons op rest ih =>
    intro st upd st₁ upd₁ h a ha hupd
    simp only [removalLoop] at h
    cases hget : getValidator st op with
    | none =>
      rw [hget] at h
      exact Option.noConfusion h
    | some v =>
      rw [hget] at h
      dsimp only at h
      cases hbu : bondedToUnbonding ctx k st v with
      | none =>
        rw [hbu] at h
        exact Option.noConfusion h
      | some r =>
        obtain ⟨stA, vA⟩ := r
        rw [hbu] at h
        dsimp only at h
        obtain ⟨hself, hother⟩ := bondedToUnbonding_spec hbu
        have haddr : v.operatorAddr = op := getValidator_addr hget
        by_cases hopa : op = a
        · subst hopa
          rw [hget] at ha
          have hnone : v.consPubKey = none := by simpa using ha
          rw [if_neg (show ¬(v.consPubKey.isSome = true) by simp [hnone])] at h
          refine ih _ _ h op ?_ hupd
          by_cases hz : v.tokens = 0
          · rw [if_pos hz]
            show (getValidator (RemoveValidator ctx k stA v.operatorAddr) op).bind
              Validator.consPubKey = none
            rw [haddr, getValidator_RemoveValidator_self]
            rfl
          · rw [if_neg hz]
            show (getValidator stA op).bind Validator.consPubKey = none
            rw [← haddr, hself]
            show ({v with status := BondStatus.unbonding,
                          unbondingMinTime := ctx.blockTime + k.unbondingTime,
                          unbondingHeight := ctx.blockHeight} : Validator).consPubKey
              = none
            rw [consPubKey_congr (u :=
              {v with status := BondStatus.unbonding,
                      unbondingMinTime := ctx.blockTime + k.unbondingTime,
                      unbondingHeight := ctx.blockHeight}) (v := v) rfl]
            exact hnone
        · have hane : a ≠ op := fun heq => hopa heq.symm
          have hav : a ≠ v.operatorAddr := by rw [haddr]; exact hane
          refine ih _ _ h a ?_ ?_
          · by_cases hz : v.tokens = 0
            · rw [if_pos hz]
              show (getValidator (RemoveValidator ctx k stA v.operatorAddr) a).bind
                Validator.consPubKey = none
              rw [getValidator_RemoveValidator_ne hav, hother a hav]
              exact ha
            · rw [if_neg hz]
              show (getValidator stA a).bind Validator.consPubKey = none
              rw [hother a hav]
              exact ha
          · by_cases hpk : v.consPubKey.isSome = true
            · rw [if_pos hpk]
              intro u hu
              rcases List.mem_append.mp hu with hu1 | hu2
              · exact hupd u hu1
              · have : u = ABCIValidatorUpdateZero v := by simpa using hu2
                subst this
                show v.operatorAddr ≠ a
                rw [haddr]
                exact Ne.symm hane
            · rw [if_neg hpk]
              exact hupd

/-- C9: a validator whose consensus identity is absent (a side-chain
validator without a consensus public key) never contributes a record to the
consensus-update list returned by `ApplyAndReturnValidatorSetUpdates`,
neither on bonding/power change nor on removal. -/
theorem apply_no_update_without_consPubKey (ctx : Ctx) (k : KeeperParams)
    (st : State) (st' : State) (nv : List Validator) (upd : List UpdateRec)
    (h : ApplyAndReturnValidatorSetUpdates ctx k st = some (st', nv, upd))
    (a : Nat) (ha : (getValidator st a).bind Validator.consPubKey = none) :
    ∀ u ∈ upd, u.operator ≠ a := by
  unfold ApplyAndReturnValidatorSetUpdates at h
  dsimp only at h
  cases hc : candLoop ctx k (powerIterOps st) st st.lastPower k.maxValidators
      [] [] 0 with
  | none =>
    rw [hc] at h
    exact Option.noConfusion h
  | some r =>
    obtain ⟨st₂, last₂, nv₂, upd₂, tot₂⟩ := r
    rw [hc] at h
    dsimp only at h
    cases hr : removalLoop ctx k
        (sortBy (fun a b => a ≤ b) (last₂.map Prod.fst)) st₂ upd₂ with
    | none =>
      rw [hr] at h
      exact Option.noConfusion h
    | some r2 =>
      obtain ⟨st₃, upd₃⟩ := r2
      rw [hr] at h
      dsimp only at h
      simp only [Option.some.injEq, Prod.mk.injEq] at h
      obtain ⟨-, -, hupd3⟩ := h
      obtain ⟨h1, h2⟩ := candLoop_no_cons ctx k _ _ _ _ _ _ _ hc a ha
        (fun u hu => absurd hu (List.not_mem_nil u))
      have h3 := removalLoop_no_cons ctx k _ _ _ hr a h2 h1
      intro u hu
      exact h3 u (hupd3 ▸ hu)

theorem apply_no_update_without_consPubKey_witness :
    ((getValidator stSide 2).bind Validator.consPubKey = none) ∧
    ∀ u ∈ ([] : List UpdateRec), u.operator ≠ 2 :=
  ⟨by decide,
   apply_no_update_without_consPubKey baseCtx baseParams stSide
     {stSide with lastPower := [(2, 10)]} [vSide] []
     (by decide) 2 (by decide)⟩

/-! ### C2: deletion in the no-longer-bonded loop -/

/-- The no-longer-bonded loop does not touch records of operators outside its
list. -/
theorem removalLoop_pres (ctx : Ctx) (k : KeeperParams) :
    ∀ (ops : List Nat) (st : State) (upd : List UpdateRec)
      {st₁ : State} {upd₁ : List UpdateRec},
      removalLoop ctx k ops st upd = some (st₁, upd₁) →
      ∀ b, b ∉ ops → getValidator st₁ b = getValidator st b := by
  intro ops
  induction ops with
  | nil =>
    intro st upd st₁ upd₁ h b hb
    simp only [removalLoop, Option.some.injEq, Prod.mk.injEq] at h
    rw [← h.1]
  | cons p rest ih =>
    intro st upd st₁ upd₁ h b hb
    simp only [removalLoop] at h
    cases hget : getValidator st p with
    | none => rw [hget] at h; exact Option.noConfusion h
    | some v0 =>
      rw [hget] at h
      dsimp only at h
      cases hbu : bondedToUnbonding ctx k st v0 with
      | none => rw [hbu] at h; exact Option.noConfusion h
      | some r =>
        obtain ⟨stA, vA⟩ := r
        rw [hbu] at h
        dsimp only at h
        obtain ⟨hself, hother⟩ := bondedToUnbonding_spec hbu
        have haddr : v0.operatorAddr = p := getValidator_addr hget
        have hbp : b ≠ p := fun heq => hb (heq ▸ List.mem_cons_self p rest)
        have hbrest : b ∉ rest := fun hmem => hb (List.mem_cons_of_mem p hmem)
        rw [ih _ _ h b hbrest]
        show getValidator
          (if v0.tokens = 0 then RemoveValidator ctx k stA v0.operatorAddr else stA) b
          = getValidator st b
        by_cases hz : v0.tokens = 0
        · rw [if_pos hz,
            getValidator_RemoveValidator_ne (show b ≠ v0.operatorAddr by
              rw [haddr]; exact hbp)]
          exact hother b (by rw [haddr]; exact hbp)
        · rw [if_neg hz]
          exact hother b (by rw [haddr]; exact hbp)

/-- C2 (amended): for every operator processed by the no-longer-bonded loop
of `ApplyAndReturnValidatorSetUpdates`, the validator record is deleted from
the store entirely if and only if its token balance is zero — the source
guards `RemoveValidator` on `validator.Tokens.IsZero()`, not on the
delegator shares. -/
theorem removalLoop_deletes_iff_tokens_zero (ctx : Ctx) (k : KeeperParams) :
    ∀ (ops : List Nat) (st : State) (upd : List UpdateRec)
      (st₁ : State) (upd₁ : List UpdateRec),
      removalLoop ctx k ops st upd = some (st₁, upd₁) →
      ops.Nodup →
      ∀ op ∈ ops, ∀ v, getValidator st op = some v →
        (getValidator st₁ op = none ↔ v.tokens = 0) := by
  intro ops
  induction ops with
  | nil =>
    intro st upd st₁ upd₁ h hnd op hop
    exact absurd hop (List.not_mem_nil op)
  | cons p rest ih =>
    intro st upd st₁ upd₁ h hnd op hop v hv
    simp only [removalLoop] at h
    cases hget : getValidator st p with
    | none => rw [hget] at h; exact Option.noConfusion h
    | some v0 =>
      rw [hget] at h
      dsimp only at h
      cases hbu : bondedToUnbonding ctx k st v0 with
      | none => rw [hbu] at h; exact Option.noConfusion h
      | some r =>
        obtain ⟨stA, vA⟩ := r
        rw [hbu] at h
        dsimp only at h
        obtain ⟨hself, hother⟩ := bondedToUnbonding_spec hbu
        have haddr : v0.operatorAddr = p := getValidator_addr hget
        rcases List.mem_cons.mp hop with heq | hrest
        · subst heq
          have hv0 : v = v0 := Option.some.inj (hv.symm.trans hget)
          subst hv0
          by_cases hz : v.tokens = 0
          · rw [if_pos hz] at h
            have hfin : getValidator st₁ op = none := by
              rw [removalLoop_pres ctx k rest _ _ h op (List.nodup_cons.mp hnd).1]
              show getValidator (RemoveValidator ctx k stA v.operatorAddr) op = none
              rw [← haddr]
              exact getValidator_RemoveValidator_self ctx k stA v.operatorAddr
            exact ⟨fun _ => hz, fun _ => hfin⟩
          · rw [if_neg hz] at h
            have hsome : getValidator st₁ op
                = some {v with status := .unbonding,
                               unbondingMinTime := ctx.blockTime + k.unbondingTime,
                               unbondingHeight := ctx.blockHeight} := by
              rw [removalLoop_pres ctx k rest _ _ h op (List.nodup_cons.mp hnd).1]
              show getValidator stA op = _
              rw [← haddr]
              exact hself
            refine ⟨fun hn => ?_, fun hzz => absurd hzz hz⟩
            rw [hsome] at hn
            exact Option.noConfusion hn
        · have hpne : op ≠ p := by
            intro heq
            subst heq
            exact (List.nodup_cons.mp hnd).1 hrest
          refine ih _ _ _ _ h (List.nodup_cons.mp hnd).2 op hrest v ?_
          show getValidator
            (if v0.tokens = 0 then RemoveValidator ctx k stA v0.operatorAddr else stA) op
            = some v
          by_cases hz : v0.tokens = 0
          · rw [if_pos hz,
              getValidator_RemoveValidator_ne (show op ≠ v0.operatorAddr by
                rw [haddr]; exact hpne),
              hother op (by rw [haddr]; exact hpne)]
            exact hv
          · rw [if_neg hz, hother op (by rw [haddr]; exact hpne)]
            exact hv

/-- C2 counterexample: a validator with zero tokens but delegator shares 7 is
left in the no-longer-bonded set and its record is deleted entirely by
`ApplyAndReturnValidatorSetUpdates`, even though its delegator shares are not
zero — deletion is governed by the token balance, not the shares. -/
theorem apply_deletes_record_with_nonzero_shares :
    (getValidator st2cex 1).map Validator.delegatorShares = some 7 ∧
    (ApplyAndReturnValidatorSetUpdates baseCtx baseParams st2cex).map
      (fun r => getValidator r.1 1) = some none := by
  decide

/-! ### C1: the update list has distinct operators and a bounded non-zero part -/

/-- Candidate-loop update accounting: processing a duplicate-free candidate
list appends at most `cr` records, each for a distinct candidate operator,
each with non-zero power, each absent from the residual previous-bonded map;
the residual map is a sublist of the input map. -/
theorem candLoop_updates_spec (ctx : Ctx) (k : KeeperParams) :
    ∀ (ops : List Nat) (st : State) (last : List (Nat × Int)) (cr : Nat)
      (nv : List Validator) (upd : List UpdateRec) (tot : Int)
      {st₁ : State} {last₁ : List (Nat × Int)} {nv₁ : List Validator}
      {upd₁ : List UpdateRec} {tot₁ : Int},
      candLoop ctx k ops st last cr nv upd tot
        = some (st₁, last₁, nv₁, upd₁, tot₁) →
      ops.Nodup →
      ∃ Δ : List UpdateRec,
        upd₁ = upd ++ Δ ∧
        Δ.length ≤ cr ∧
        (Δ.map UpdateRec.operator).Nodup ∧
        (∀ u ∈ Δ, u.operator ∈ ops ∧ u.power ≠ 0 ∧
          u.operator ∉ last₁.map Prod.fst) ∧
        last₁.Sublist last := by
  intro ops
  induction ops with
  | nil =>
    intro st last cr nv upd tot st₁ last₁ nv₁ upd₁ tot₁ h hnd
    simp only [candLoop, Option.some.injEq, Prod.mk.injEq] at h
    obtain ⟨-, h2, -, h4, -⟩ := h
    subst h2
    subst h4
    exact ⟨[], (List.append_nil upd).symm, Nat.zero_le cr, List.nodup_nil,
      fun u hu => absurd hu (List.not_mem_nil u), List.Sublist.refl last⟩
  | cons op rest ih =>
    intro st last cr nv upd tot st₁ last₁ nv₁ upd₁ tot₁ h hnd
    simp only [candLoop] at h
    by_cases hcr : cr = 0
    · rw [if_pos hcr] at h
      simp only [Option.some.injEq, Prod.mk.injEq] at h
      obtain ⟨-, h2, -, h4, -⟩ := h
      subst h2
      subst h4
      exact ⟨[], (List.append_nil upd).symm, Nat.zero_le cr, List.nodup_nil,
        fun u hu => absurd hu (List.not_mem_nil u), List.Sublist.refl last⟩
    · rw [if_neg hcr] at h
      cases hgp : getValidator st op with
      | none => rw [hgp] at h; exact Option.noConfusion h
      | some v =>
        rw [hgp] at h
        dsimp only at h
        by_cases hjp : v.jailed
        · rw [if_pos hjp] at h
          exact Option.noConfusion h
        · rw [if_neg hjp] at h
          by_cases hzp : v.tokens = 0
          · rw [if_pos hzp] at h
            simp only [Option.some.injEq, Prod.mk.injEq] at h
            obtain ⟨-, h2, -, h4, -⟩ := h
            subst h2
            subst h4
            exact ⟨[], (List.append_nil upd).symm, Nat.zero_le cr, List.nodup_nil,
              fun u hu => absurd hu (List.not_mem_nil u), List.Sublist.refl last⟩
          · rw [if_neg hzp] at h
            obtain ⟨stA, v', hstep, haddr', htok', hstat', hcid', hjl', hsh',
              hself, hother⟩ := candStep_spec hgp
            rw [hstep] at h
            dsimp only at h
            have hnp : v'.bondedTokens ≠ 0 := by
              unfold Validator.bondedTokens
              rw [if_pos hstat', htok']
              exact hzp
            have hopnotin : ∀ (l2 : List (Nat × Int)),
                l2.Sublist (last.filter (fun e => e.1 ≠ op)) →
                op ∉ l2.map Prod.fst := by
              intro l2 hsub hmem
              obtain ⟨e, he, heq⟩ := List.mem_map.mp hmem
              have he2 := hsub.subset he
              have he3 := (List.mem_filter.mp he2).2
              simp only [decide_eq_true_eq] at he3
              exact he3 heq
            have hnd' := List.nodup_cons.mp hnd
            by_cases hC : Option.map Prod.snd (List.find? (fun e => e.1 == op) last)
                ≠ some v'.bondedTokens
            · rw [if_pos hC] at h
              dsimp only at h
              by_cases hpk : v'.consPubKey.isSome = true
              · rw [if_pos hpk] at h
                obtain ⟨Δ', heq', hlen', hnd1', hfacts', hsub'⟩ :=
                  ih _ _ _ _ _ _ h hnd'.2
                refine ⟨ABCIValidatorUpdate v' :: Δ', ?_, ?_, ?_, ?_,
                  hsub'.trans (List.filter_sublist last)⟩
                · rw [heq', List.append_assoc]
                  rfl
                · simp only [List.length_cons]
                  omega
                · rw [List.map_cons]
                  refine List.nodup_cons.mpr ⟨?_, hnd1'⟩
                  intro hmem
                  obtain ⟨u, hu, hequ⟩ := List.mem_map.mp hmem
                  have hin := (hfacts' u hu).1
                  rw [hequ] at hin
                  have hopeq : (ABCIValidatorUpdate v').operator = op := haddr'
                  rw [hopeq] at hin
                  exact hnd'.1 hin
                · intro u hu
                  rcases List.mem_cons.mp hu with rfl | hu'
                  · refine ⟨?_, hnp, ?_⟩
                    · show v'.operatorAddr ∈ op :: rest
                      rw [haddr']
                      exact List.mem_cons_self op rest
                    · show v'.operatorAddr ∉ List.map Prod.fst last₁
                      rw [haddr']
                      exact hopnotin last₁ hsub'
                  · obtain ⟨ha1, ha2, ha3⟩ := hfacts' u hu'
                    exact ⟨List.mem_cons_of_mem _ ha1, ha2, ha3⟩
              · rw [if_neg hpk] at h
                obtain ⟨Δ', heq', hlen', hnd1', hfacts', hsub'⟩ :=
                  ih _ _ _ _ _ _ h hnd'.2
                refine ⟨Δ', heq', by omega, hnd1', ?_,
                  hsub'.trans (List.filter_sublist last)⟩
                intro u hu
                obtain ⟨ha1, ha2, ha3⟩ := hfacts' u hu
                exact ⟨List.mem_cons_of_mem _ ha1, ha2, ha3⟩
            · rw [if_neg hC] at h
              dsimp only at h
              obtain ⟨Δ', heq', hlen', hnd1', hfacts', hsub'⟩ :=
                ih _ _ _ _ _ _ h hnd'.2
              refine ⟨Δ', heq', by omega, hnd1', ?_,
                hsub'.trans (List.filter_sublist last)⟩
              intro u hu
              obtain ⟨ha1, ha2, ha3⟩ := hfacts' u hu
              exact ⟨List.mem_cons_of_mem _ ha1, ha2, ha3⟩

/-- No-longer-bonded-loop update accounting: processing a duplicate-free
operator list appends only zero-power records with distinct operators drawn
from the list. -/
theorem removalLoop_updates_spec (ctx : Ctx) (k : KeeperParams) :
    ∀ (ops : List Nat) (st : State) (upd : List UpdateRec)
      {st₁ : State} {upd₁ : List UpdateRec},
      removalLoop ctx k ops st upd = some (st₁, upd₁) →
      ops.Nodup →
      ∃ Δ : List UpdateRec,
        upd₁ = upd ++ Δ ∧
        (Δ.map UpdateRec.operator).Nodup ∧
        ∀ u ∈ Δ, u.power = 0 ∧ u.operator ∈ ops := by
  intro ops
  induction ops with
  | nil =>
    intro st upd st₁ upd₁ h hnd
    simp only [removalLoop, Option.some.injEq, Prod.mk.injEq] at h
    obtain ⟨-, h2⟩ := h
    subst h2
    exact ⟨[], (List.append_nil upd).symm, List.nodup_nil,
      fun u hu => absurd hu (List.not_mem_nil u)⟩
  | cons p rest ih =>
    intro st upd st₁ upd₁ h hnd
    simp only [removalLoop] at h
    cases hget : getValidator st p with
    | none => rw [hget] at h; exact Option.noConfusion h
    | some v0 =>
      rw [hget] at h
      dsimp only at h
      cases hbu : bondedToUnbonding ctx k st v0 with
      | none => rw [hbu] at h; exact Option.noConfusion h
      | some r =>
        obtain ⟨stA, vA⟩ := r
        rw [hbu] at h
        dsimp only at h
        have haddr : v0.operatorAddr = p := getValidator_addr hget
        have hnd' := List.nodup_cons.mp hnd
        by_cases hpk : v0.consPubKey.isSome = true
        · rw [if_pos hpk] at h
          obtain ⟨Δ', heq', hnd1', hfacts'⟩ := ih _ _ h hnd'.2
          refine ⟨ABCIValidatorUpdateZero v0 :: Δ', ?_, ?_, ?_⟩
          · rw [heq', List.append_assoc]
            rfl
          · rw [List.map_cons]
            refine List.nodup_cons.mpr ⟨?_, hnd1'⟩
            intro hmem
            obtain ⟨u, hu, hequ⟩ := List.mem_map.mp hmem
            have hin := (hfacts' u hu).2
            rw [hequ] at hin
            have hopeq : (ABCIValidatorUpdateZero v0).operator = p := haddr
            rw [hopeq] at hin
            exact hnd'.1 hin
          · intro u hu
            rcases List.mem_cons.mp hu with rfl | hu'
            · refine ⟨rfl, ?_⟩
              show v0.operatorAddr ∈ p :: rest
              rw [haddr]
              exact List.mem_cons_self p rest
            · obtain ⟨ha1, ha2⟩ := hfacts' u hu'
              exact ⟨ha1, List.mem_cons_of_mem _ ha2⟩
        · rw [if_neg hpk] at h
          obtain ⟨Δ', heq', hnd1', hfacts'⟩ := ih _ _ h hnd'.2
          refine ⟨Δ', heq', hnd1', ?_⟩
          intro u hu
          obtain ⟨ha1, ha2⟩ := hfacts' u hu
          exact ⟨ha1, List.mem_cons_of_mem _ ha2⟩

/-- C1: for every store whose power index and previous-bonded snapshot are
well-formed (one entry per operator — a KV store cannot hold duplicate keys),
the consensus-update list returned by `ApplyAndReturnValidatorSetUpdates`
contains no two records for the same operator, and the number of
non-zero-power (addition/change) records in it is at most `MaxValidators`. -/
theorem apply_updates_nodup_and_bounded (ctx : Ctx) (k : KeeperParams)
    (st : State)
    (h1 : (st.powerIndex.map PIKey.addr).Nodup)
    (h2 : (st.lastPower.map Prod.fst).Nodup)
    (st' : State) (nv : List Validator) (upd : List UpdateRec)
    (h : ApplyAndReturnValidatorSetUpdates ctx k st = some (st', nv, upd)) :
    (upd.map UpdateRec.operator).Nodup ∧
    (upd.filter (fun u => u.power ≠ 0)).length ≤ k.maxValidators := by
  unfold ApplyAndReturnValidatorSetUpdates at h
  dsimp only at h
  cases hc : candLoop ctx k (powerIterOps st) st st.lastPower k.maxValidators
      [] [] 0 with
  | none =>
    rw [hc] at h
    exact Option.noConfusion h
  | some r =>
    obtain ⟨st₂, last₂, nv₂, upd₂, tot₂⟩ := r
    rw [hc] at h
    dsimp only at h
    cases hr : removalLoop ctx k
        (sortBy (fun a b => a ≤ b) (last₂.map Prod.fst)) st₂ upd₂ with
    | none =>
      rw [hr] at h
      exact Option.noConfusion h
    | some r2 =>
      obtain ⟨st₃, upd₃⟩ := r2
      rw [hr] at h
      dsimp only at h
      simp only [Option.some.injEq, Prod.mk.injEq] at h
      obtain ⟨-, -, hupd3⟩ := h
      have hiter : (powerIterOps st).Nodup := by
        unfold powerIterOps
        exact (((sortBy_perm keyBefore st.powerIndex).map PIKey.addr).nodup_iff).mpr h1
      obtain ⟨Δ, hupdeq, hlen, hnd1, hfacts, hsub⟩ :=
        candLoop_updates_spec ctx k _ _ _ _ _ _ _ hc hiter
      rw [List.nil_append] at hupdeq
      have hlast2 : (last₂.map Prod.fst).Nodup :=
        List.Nodup.sublist (hsub.map Prod.fst) h2
      have hops2 : (sortBy (fun a b => a ≤ b) (last₂.map Prod.fst)).Nodup :=
        ((sortBy_perm _ _).nodup_iff).mpr hlast2
      obtain ⟨Δ2, hupdeq2, hnd2, hfacts2⟩ :=
        removalLoop_updates_spec ctx k _ _ _ hr hops2
      rw [← hupd3, hupdeq2, hupdeq]
      constructor
      · rw [List.map_append]
        refine List.Nodup.append hnd1 hnd2 ?_
        intro x hx1 hx2
        obtain ⟨u, hu, rfl⟩ := List.mem_map.mp hx1
        obtain ⟨u2, hu2, hequ⟩ := List.mem_map.mp hx2
        have hf1 := (hfacts u hu).2.2
        have hf2 := (hfacts2 u2 hu2).2
        have hf3 : u2.operator ∈ last₂.map Prod.fst :=
          ((sortBy_perm _ _).mem_iff).mp hf2
        rw [hequ] at hf3
        exact hf1 hf3
      · rw [List.filter_append]
        have hA : Δ.filter (fun u => u.power ≠ 0) = Δ :=
          List.filter_eq_self.mpr (fun u hu => by
            simpa using (hfacts u hu).2.1)
        have hB : Δ2.filter (fun u => u.power ≠ 0) = [] :=
          List.filter_eq_nil_iff.mpr (fun u hu => by
            simpa using (hfacts2 u hu).1)
        rw [hA, hB, List.append_nil]
        exact hlen

theorem apply_updates_nodup_and_bounded_witness :
    ((stW1.powerIndex.map PIKey.addr).Nodup ∧
      (stW1.lastPower.map Prod.fst).Nodup) ∧
    (([⟨1, 10⟩] : List UpdateRec).map UpdateRec.operator).Nodup ∧
    (([⟨1, 10⟩] : List UpdateRec).filter (fun u => u.power ≠ 0)).length
      ≤ baseParams.maxValidators :=
  ⟨⟨by decide, by decide⟩,
   apply_updates_nodup_and_bounded baseCtx baseParams stW1 (by decide) (by decide)
     ⟨[⟨1, .main 21, false, .bonded, 10, 10, 10, 0, 0, 0, sampleCommission⟩],
      [⟨10, 10, 0, 1⟩], [(21, 1)], [(1, 10)], [], ⟨10, -10⟩, 0, 10,
      [Event.bondedHook 21 1]⟩
     [⟨1, .main 21, false, .bonded, 10, 10, 10, 0, 0, 0, sampleCommission⟩]
     [⟨1, 10⟩]
     (by decide)⟩

theorem removalLoop_deletes_iff_tokens_zero_witness :
    (getValidator st2cex 1 = some v2cex ∧ ([1] : List Nat).Nodup) ∧
    (getValidator (⟨[], [], [], [], [(1100, [1])], basePool, 0, 0,
        [Event.beginUnbondingHook 21 1]⟩ : State) 1 = none
      ↔ v2cex.tokens = 0) :=
  ⟨⟨by decide, by decide⟩,
   removalLoop_deletes_iff_tokens_zero baseCtx baseParams [1] st2cex []
     ⟨[], [], [], [], [(1100, [1])], basePool, 0, 0,
        [Event.beginUnbondingHook 21 1]⟩
     [⟨1, 0⟩] (by decide) (by decide) 1 (by decide) v2cex (by decide)⟩

end BncStake
